import Mathlib

/-!
Verification of the entropy-estimation engine of `securitylib/passwords.py`.

Passwords are Python 2 byte strings; we embed them as `List Char`.
Numeric entropy accumulation uses exact rationals (the Python code only ever
adds and multiplies the decimal constants 2, 1.5, 1, 0.75, 0.4, 4, 6), and the
single transcendental step (`math.log`) is embedded over the reals.
-/

set_option maxHeartbeats 1000000

/-- `ord('a') <= ord(char) <= ord('z')`, the helper `char_is_lower` of the source. -/
def char_is_lower (c : Char) : Bool :=
  decide ('a'.toNat ≤ c.toNat ∧ c.toNat ≤ 'z'.toNat)

/-- `'A' <= char <= 'Z'` as tested by `get_entropy_bits` via `ord`. -/
def char_is_upper (c : Char) : Bool :=
  decide ('A'.toNat ≤ c.toNat ∧ c.toNat ≤ 'Z'.toNat)

/-- `'0' <= char <= '9'` as tested by `get_entropy_bits` via `ord`. -/
def char_is_digit (c : Char) : Bool :=
  decide ('0'.toNat ≤ c.toNat ∧ c.toNat ≤ '9'.toNat)

/-- Python 2 `str.lower()` on a byte: shifts `A`–`Z` by 32, leaves the rest. -/
def py_lower (c : Char) : Char :=
  if char_is_upper c then Char.ofNat (c.toNat + 32) else c

/-- The `'\x00'` sentinel used by `remove_sequence`. -/
def NUL : Char := Char.ofNat 0

/-- Pointwise update of an array modelled as a total function. -/
def fupd {α : Type} (f : ℕ → α) (i : ℕ) (v : α) : ℕ → α :=
  fun j => if j = i then v else f j

/-! ### Occurrences and contiguous substrings -/
/-- `w` occurs in `s` as a contiguous block starting at index `i`. -/
def occursAt (w s : List Char) (i : ℕ) : Prop :=
  i + w.length ≤ s.length ∧ (s.drop i).take w.length = w

/-- `w` is a contiguous substring of `s` (Python's `w in s`). -/
def substr (w s : List Char) : Prop :=
  ∃ i, occursAt w s i

instance (w s : List Char) (i : ℕ) : Decidable (occursAt w s i) := by
  unfold occursAt; infer_instance

instance (w s : List Char) : Decidable (substr w s) := by
  refine decidable_of_iff (∃ i ≤ s.length, occursAt w s i) ?_
  constructor
  · rintro ⟨i, _, h⟩; exact ⟨i, h⟩
  · rintro ⟨i, h⟩
    refine ⟨i, ?_, h⟩
    have hb := h.1
    omega

/-! ### `longest_common_substring`

The Python implementation is classic dynamic programming with two rolling
rows `m1`, `m2` of length `1 + len(s2)`.  The rows are embedded as total
functions `ℕ → ℕ`; the buffer swap `m1, m2 = m2, m1` is modelled by starting
each row from a fresh all-zero function, which is sound because the loop
overwrites every cell `1..len(s2)` before it is read and never writes cell 0.
-/
/-- One full inner loop (`for y, s2_char in enumerate(s2, 1)`) of
`longest_common_substring`, acting on the state `(m2, longest, x_longest)`. -/
def lcs_inner (m1 : ℕ → ℕ) (x : ℕ) (c1 : Char)
    (st : (ℕ → ℕ) × ℕ × ℕ) (l : List (ℕ × Char)) : (ℕ → ℕ) × ℕ × ℕ :=
  l.foldl (fun st2 yc =>
    let y := yc.1
    let c2 := yc.2
    let m2 := st2.1
    let longest := st2.2.1
    let x_longest := st2.2.2
    if c1 = c2 then
      let v := m1 (y - 1) + 1
      (fupd m2 y v, if longest < v then v else longest,
        if longest < v then x else x_longest)
    else
      (fupd m2 y 0, longest, x_longest)) st

/-- The outer loop (`for x, s1_char in enumerate(s1, 1)`): each iteration runs
the inner loop on a fresh row and keeps `(longest, x_longest)`. -/
def lcs_outer (s2 : List Char) (st : (ℕ → ℕ) × ℕ × ℕ) (l : List (ℕ × Char)) :
    (ℕ → ℕ) × ℕ × ℕ :=
  l.foldl (fun st1 xc =>
    lcs_inner st1.1 xc.1 xc.2 ((fun _ => 0), st1.2.1, st1.2.2)
      (List.enumFrom 1 s2)) st

/-- `longest_common_substring(s1, s2)` of the source: returns
`(start, s1[start:x_longest])`. -/
def longest_common_substring (s1 s2 : List Char) : ℕ × List Char :=
  let final := lcs_outer s2 ((fun _ => 0), 0, 0) (List.enumFrom 1 s1)
  let longest := final.2.1
  let x_longest := final.2.2
  let start := x_longest - longest
  (start, (s1.drop start).take (x_longest - start))

/-- Length of the longest common suffix of `s1.take x` and `s2.take y`; this is
the quantity stored in cell `(x, y)` of the dynamic-programming table. -/
def lcsuff (s1 s2 : List Char) : ℕ → ℕ → ℕ
  | 0, _ => 0
  | _ + 1, 0 => 0
  | x + 1, y + 1 => if s1[x]? = s2[y]? then lcsuff s1 s2 x y + 1 else 0

/-- Postcondition of one full row of the dynamic program: the fresh row holds
`lcsuff` of the new prefix, and `(longest, x_longest)` either kept the incoming
pair or was raised to a value realised in this row (whose end column is `x1+1`). -/
def lcsInnerPost (s1 s2 : List Char) (x1 l0 xl0 : ℕ) (res : (ℕ → ℕ) × ℕ × ℕ) : Prop :=
  (∀ y ≤ s2.length, res.1 y = lcsuff s1 s2 (x1 + 1) y) ∧
  (∀ y, 1 ≤ y → y ≤ s2.length → lcsuff s1 s2 (x1 + 1) y ≤ res.2.1) ∧
  l0 ≤ res.2.1 ∧
  ((res.2.1 = l0 ∧ res.2.2 = xl0) ∨
    (l0 < res.2.1 ∧ res.2.2 = x1 + 1 ∧
      ∃ y, 1 ≤ y ∧ y ≤ s2.length ∧ lcsuff s1 s2 (x1 + 1) y = res.2.1))

/-- Invariant of the outer loop after the rows `1..X` have been processed:
`l` is the maximum table cell so far, realised at end column `xl` (the first
row in which the maximum is attained), and all strictly earlier rows are
strictly below `l`. -/
def lcsOInv (s1 s2 : List Char) (X l xl : ℕ) : Prop :=
  (∀ x y, 1 ≤ x → x ≤ X → 1 ≤ y → y ≤ s2.length → lcsuff s1 s2 x y ≤ l) ∧
  (l = 0 → xl = 0) ∧
  (0 < l → 1 ≤ xl ∧ xl ≤ X ∧ ∃ y, 1 ≤ y ∧ y ≤ s2.length ∧ lcsuff s1 s2 xl y = l) ∧
  (0 < l → ∀ x y, 1 ≤ x → x < xl → 1 ≤ y → y ≤ s2.length → lcsuff s1 s2 x y < l)

/-- The final fold state of `longest_common_substring`. -/
def lcs_final (s1 s2 : List Char) : (ℕ → ℕ) × ℕ × ℕ :=
  lcs_outer s2 ((fun _ => 0), 0, 0) (List.enumFrom 1 s1)

/-- The fixed table of keyboard/numeric walk patterns (`KEYBOARD_SEQUENCES`). -/
def KEYBOARD_SEQUENCES : List (List Char) :=
  ["1234567890qwertyuiopasdfghjklzxcvbnm".toList,
   "1qaz2wsx3edc4rfv5tgb6yhn7ujm8ik9ol0p".toList,
   "qazwsxedcrfvtgbyhnujmikolp".toList,
   "0147258369".toList,
   "1470258369".toList,
   "7894561230".toList,
   "abcdefgh".toList,
   "13579".toList,
   "02468".toList,
   "a1b2c3d4e5f6g7h8i9j0".toList]

/-- `remove_sequence(string, keyboard_seq)` of the source: if the longest common
substring with the table entry is longer than 2, replace it by two `NUL` bytes
and recurse on the left and right remainders. -/
def remove_sequence (s keyboard_seq : List Char) : List Char :=
  if 2 < (longest_common_substring s keyboard_seq).2.length then
    remove_sequence (s.take (longest_common_substring s keyboard_seq).1) keyboard_seq ++
      [NUL, NUL] ++
      remove_sequence (s.drop ((longest_common_substring s keyboard_seq).1 +
        (longest_common_substring s keyboard_seq).2.length)) keyboard_seq
  else s
termination_by s.length
decreasing_by
  · have h2 : (longest_common_substring s keyboard_seq).2.length =
        min ((lcs_final s keyboard_seq).2.2 -
            ((lcs_final s keyboard_seq).2.2 - (lcs_final s keyboard_seq).2.1))
          (s.length - ((lcs_final s keyboard_seq).2.2 -
            (lcs_final s keyboard_seq).2.1)) := by
      rw [show (longest_common_substring s keyboard_seq).2 =
        (s.drop ((lcs_final s keyboard_seq).2.2 - (lcs_final s keyboard_seq).2.1)).take
          ((lcs_final s keyboard_seq).2.2 -
            ((lcs_final s keyboard_seq).2.2 - (lcs_final s keyboard_seq).2.1)) from rfl]
      rw [List.length_take, List.length_drop]
    have h1 : (longest_common_substring s keyboard_seq).1 =
        (lcs_final s keyboard_seq).2.2 - (lcs_final s keyboard_seq).2.1 := rfl
    simp only [List.length_take]
    omega
  · have h2 : (longest_common_substring s keyboard_seq).2.length =
        min ((lcs_final s keyboard_seq).2.2 -
            ((lcs_final s keyboard_seq).2.2 - (lcs_final s keyboard_seq).2.1))
          (s.length - ((lcs_final s keyboard_seq).2.2 -
            (lcs_final s keyboard_seq).2.1)) := by
      rw [show (longest_common_substring s keyboard_seq).2 =
        (s.drop ((lcs_final s keyboard_seq).2.2 - (lcs_final s keyboard_seq).2.1)).take
          ((lcs_final s keyboard_seq).2.2 -
            ((lcs_final s keyboard_seq).2.2 - (lcs_final s keyboard_seq).2.1)) from rfl]
      rw [List.length_take, List.length_drop]
    have h1 : (longest_common_substring s keyboard_seq).1 =
        (lcs_final s keyboard_seq).2.2 - (lcs_final s keyboard_seq).2.1 := rfl
    simp only [List.length_drop]
    omega

/-! ### Variants and the entropy pipeline -/
/-- The `PassVariant` class: a transformed password plus its accumulated
entropy adjustment. -/
structure PassVariant where
  password : List Char
  entropy : ℚ
deriving DecidableEq

/-- `reverse_password`: reversed string, entropy + 1. -/
def reverse_password (password : PassVariant) : PassVariant :=
  ⟨password.password.reverse, password.entropy + 1⟩

/-- `KeepMinDict.__setitem__`: the dictionary is keyed by the variant string and
on collision keeps the entry with strictly smaller entropy. -/
def kmInsert : List PassVariant → PassVariant → List PassVariant
  | [], v => [v]
  | w :: ws, v =>
    if w.password = v.password then
      if v.entropy < w.entropy then v :: ws else w :: ws
    else w :: kmInsert ws v

/-- `string.maketrans(from, to)` as a character map. -/
def trans_lookup : List (Char × Char) → Char → Char
  | [], c => c
  | p :: t, c => if c = p.1 then p.2 else trans_lookup t c

def maketrans (frm dst : List Char) : Char → Char :=
  trans_lookup (frm.zip dst)

def LEET_FROM : List Char := "@!$1234567890".toList

def LEET_TO_A : List Char := "aisizeasgtbgo".toList

def LEET_TO_B : List Char := "aislzeasgtbgo".toList

/-- `len(set(orig_pass))`. -/
def n_different_characters (p : List Char) : ℕ := p.dedup.length

/-- `get_NIST_num_bits(password, repeatcalc)`.  The 256-entry `charmult` array
(indexed by `ord`) is modelled as a total function on byte codes. -/
def get_NIST_num_bits (password : List Char) (repeatcalc : Bool := false) : ℚ :=
  if repeatcalc then
    (password.enum.foldl (fun st ic =>
      let charmult := st.1
      let result := st.2
      let tempchr := ic.2.toNat
      let add : ℚ :=
        if 19 ≤ ic.1 then charmult tempchr
        else if 8 ≤ ic.1 then charmult tempchr * 1.5
        else if 1 ≤ ic.1 then charmult tempchr * 2
        else 4
      (fupd charmult tempchr (max (charmult tempchr * 0.75) 0.4), result + add))
      ((fun _ => 1), 0)).2
  else if 20 < password.length then 4 + (7 * 2) + (12 * 1.5) + (password.length : ℚ) - 20
  else if 8 < password.length then 4 + (7 * 2) + (((password.length : ℚ) - 8) * 1.5)
  else if 1 < password.length then 4 + (((password.length : ℚ) - 1) * 2)
  else if password.length = 1 then 4
  else 0

def char_is_letter (c : Char) : Bool := char_is_lower c || char_is_upper c

def plate_sep (c : Char) : Bool := c == '.' || c == '-' || c == '_'

/-- Two consecutive digits or two consecutive (ASCII) letters, the
`([0-9]{2}|[a-zA-Z]{2})` group of `LICENCE_PLATE_REGEX`. -/
def plate_pair_at (p : List Char) (i : ℕ) : Bool :=
  (char_is_digit (p.getD i ' ') && char_is_digit (p.getD (i + 1) ' ')) ||
  (char_is_letter (p.getD i ' ') && char_is_letter (p.getD (i + 1) ' '))

/-- The full 8-character licence-plate pattern matches at offset `i`. -/
def plate_at (p : List Char) (i : ℕ) : Bool :=
  decide (i + 8 ≤ p.length) && plate_pair_at p i && plate_sep (p.getD (i + 2) ' ') &&
  plate_pair_at p (i + 3) && plate_sep (p.getD (i + 5) ' ') && plate_pair_at p (i + 6)

/-- `LICENCE_PLATE_REGEX.search(pwd)`: offset of the leftmost match. -/
def find_plate (p : List Char) : Option ℕ :=
  (List.range p.length).find? (plate_at p)

/-- `''.join(filter(None, m.groups()))`: the six matched alphanumeric chars. -/
def plate_groups (p : List Char) (i : ℕ) : List Char :=
  [p.getD i ' ', p.getD (i + 1) ' ', p.getD (i + 3) ' ', p.getD (i + 4) ' ',
   p.getD (i + 6) ' ', p.getD (i + 7) ' ']

/-- `handle_license_plates(pwd)` of the source. -/
def handle_license_plates (pwd : List Char) : List Char :=
  match find_plate pwd with
  | none => pwd
  | some i =>
    let filtered_license := plate_groups pwd i
    let count_letters := (filtered_license.filter char_is_lower).length
    if count_letters = 2 then
      pwd.take i ++ filtered_license ++ pwd.drop (i + 8)
    else pwd

/-- `get_substrings_set(string, min_length)`: all contiguous substrings of
length at least `min_length` (the Python `set` is modelled as a list with
membership). -/
def get_substrings_set (s : List Char) (min_length : ℕ) : List (List Char) :=
  (List.range' min_length (s.length + 1 - min_length)).flatMap
    (fun substring_len => (List.range (s.length - substring_len + 1)).map
      (fun substring_start => (s.drop substring_start).take substring_len))

/-- `clean_pass.index(dict_word)`: offset of the first occurrence (total
version; only meaningful when the word occurs). -/
def str_find (w : List Char) : List Char → ℕ
  | [] => 0
  | c :: t => if w.isPrefixOf (c :: t) then 0 else str_find w t + 1

/-- The `for dict_word in dict_words` scan with its `break`/`continue` logic:
returns `true` exactly when some word is accepted (i.e. the loop `break`s). -/
def scan_dict_words (clean_pass : List Char) (n_alpha_chars : ℕ)
    (substr_set : List (List Char)) : List (List Char) → Bool
  | [] => false
  | dict_word :: rest =>
    if dict_word ∈ substr_set ∧ substr dict_word clean_pass then
      if 6 ≤ dict_word.length then true
      else if dict_word.length * 2 ≤ n_alpha_chars then
        scan_dict_words clean_pass n_alpha_chars substr_set rest
      else if str_find dict_word clean_pass = 0 then true
      else if char_is_lower
          (clean_pass.getD (str_find dict_word clean_pass - 1) ' ') = false then true
      else scan_dict_words clean_pass n_alpha_chars substr_set rest
    else scan_dict_words clean_pass n_alpha_chars substr_set rest

/-- Base variants: lowercase, reversed, and the two leet-speak substitutions,
deduplicated through the keep-minimum dictionary. -/
def base_variants (orig_pass : List Char) : List PassVariant :=
  let lower_pass : PassVariant := ⟨orig_pass.map py_lower, 0⟩
  let rev_pass := reverse_password lower_pass
  let d0 := kmInsert (kmInsert [] lower_pass) rev_pass
  let leetspeak_pass : PassVariant :=
    ⟨lower_pass.password.map (maketrans LEET_FROM LEET_TO_A), 1⟩
  let d1 := kmInsert d0 leetspeak_pass
  let leetspeak_pass2 : PassVariant :=
    ⟨lower_pass.password.map (maketrans LEET_FROM LEET_TO_B), 1⟩
  kmInsert d1 leetspeak_pass2

/-- The `for keyboard_seq in KEYBOARD_SEQUENCES` stripping loop. -/
def remove_all_sequences (p : List Char) : List Char :=
  KEYBOARD_SEQUENCES.foldl
    (fun tmp_pass keyboard_seq => remove_sequence tmp_pass keyboard_seq) p

/-- The `if find_keyboard_sequences` block: iterate over a snapshot of the
collection and insert each changed, stripped variant. -/
def keyboard_stage (d : List PassVariant) : List PassVariant :=
  d.foldl (fun acc cur_pass =>
    let tmp_pass := remove_all_sequences cur_pass.password
    if cur_pass.password ≠ tmp_pass then kmInsert acc ⟨tmp_pass, cur_pass.entropy⟩
    else acc) d

/-- Dictionary-word detection for one variant (`if find_dict_words` loop body). -/
def dict_words_check (dict_words : List (List Char)) (cur_pass : PassVariant) :
    PassVariant :=
  let clean_pass := cur_pass.password.filter (fun c => c != NUL)
  let n_alpha_chars := (clean_pass.filter char_is_lower).length
  if 3 ≤ clean_pass.length then
    if scan_dict_words clean_pass n_alpha_chars
        (get_substrings_set clean_pass 3) dict_words then
      cur_pass
    else ⟨cur_pass.password, cur_pass.entropy + 6⟩
  else cur_pass

def find_dict_stage (dict_words : List (List Char)) (d : List PassVariant) :
    List PassVariant :=
  d.map (dict_words_check dict_words)

/-- The `pwd.entropy += get_NIST_num_bits(pwd.password)` loop. -/
def nist_stage (d : List PassVariant) : List PassVariant :=
  d.map (fun pwd => ⟨pwd.password, pwd.entropy + get_NIST_num_bits pwd.password⟩)

/-- `min(pass_variant.entropy for pass_variant in passwords_variants.values())`. -/
def values_min : List PassVariant → ℚ
  | [] => 0
  | v :: vs => vs.foldl (fun a w => min a w.entropy) v.entropy

/-- The character-class flags `(upper, lower, digits, other)` set by the single
scan over the password. -/
def char_class_flags (orig_pass : List Char) : Bool × Bool × Bool × Bool :=
  orig_pass.foldl (fun st char =>
    if char_is_upper char then (true, st.2.1, st.2.2.1, st.2.2.2)
    else if char_is_lower char then (st.1, true, st.2.2.1, st.2.2.2)
    else if char_is_digit char then (st.1, st.2.1, true, st.2.2.2)
    else (st.1, st.2.1, st.2.2.1, true)) (false, false, false, false)

/-- The keyspace size summed from the classes present (26/26/10/32). -/
def keyspace_size (orig_pass : List Char) : ℕ :=
  (if (char_class_flags orig_pass).2.1 then 26 else 0) +
  (if (char_class_flags orig_pass).1 then 26 else 0) +
  (if (char_class_flags orig_pass).2.2.1 then 10 else 0) +
  (if (char_class_flags orig_pass).2.2.2 then 32 else 0)

/-- Everything of `get_entropy_bits` after licence-plate normalisation except
the keyspace multiplication: the final `min_entropy` value. -/
def min_entropy_of (dict_words : List (List Char)) (orig_pass : List Char) : ℚ :=
  let passwords_variants := keyboard_stage (base_variants orig_pass)
  let after_dict := find_dict_stage dict_words passwords_variants
  let after_nist := nist_stage after_dict
  let min_entropy := values_min after_nist
  let orig_pass_entropy := get_NIST_num_bits orig_pass true + 6
  if orig_pass_entropy < min_entropy then orig_pass_entropy else min_entropy

/-- `get_entropy_bits(password)` of the source, with the dictionary word list
passed as the injected dependency. -/
noncomputable def get_entropy_bits (dict_words : List (List Char))
    (password : List Char) : ℝ :=
  if password = [] then 0
  else if n_different_characters password = 1 then 6
  else
    (min_entropy_of dict_words (handle_license_plates password) : ℝ) *
      (Real.log (keyspace_size (handle_license_plates password)) / Real.log 26)

/-- The length-banded closed form of the claim for the non-repetition mode. -/
def nistBandedFormula (n : ℕ) : ℚ :=
  if n = 0 then 0
  else if n = 1 then 4
  else if n ≤ 8 then 4 + ((n : ℚ) - 1) * 2
  else if n ≤ 20 then 4 + 7 * 2 + ((n : ℚ) - 8) * 1.5
  else 4 + 7 * 2 + 12 * 1.5 + ((n : ℚ) - 20) * 1

/-- The per-position sum of the claim for the repetition-aware mode, with the
per-character multiplier map threaded through. -/
def nistRepSpecAux (m : Char → ℚ) (i : ℕ) : List Char → ℚ
  | [] => 0
  | c :: rest =>
    (if i = 0 then 4
      else if i < 8 then m c * 2
      else if i < 19 then m c * 1.5
      else m c * 1) +
    nistRepSpecAux (fun d => if d = c then max (m c * 0.75) 0.4 else m d) (i + 1) rest

def nistRepSpec (p : List Char) : ℚ := nistRepSpecAux (fun _ => 1) 0 p

/-- The acceptance condition of the dictionary scan, as the claim words it:
member of the length-≥-3 substring set, occurs in the clean string, and
either long (≥ 6), or (length×2 exceeds the lowercase count and the first
occurrence starts at 0 or is preceded by a non-lowercase character). -/
def word_accepted (clean_pass dict_word : List Char) : Prop :=
  dict_word ∈ get_substrings_set clean_pass 3 ∧ substr dict_word clean_pass ∧
  (6 ≤ dict_word.length ∨
    ((clean_pass.filter char_is_lower).length < dict_word.length * 2 ∧
      (str_find dict_word clean_pass = 0 ∨
        char_is_lower (clean_pass.getD (str_find dict_word clean_pass - 1) ' ')
          = false)))

instance (clean w : List Char) : Decidable (word_accepted clean w) := by
  unfold word_accepted; infer_instance

/-- The spec-side keyspace size: sum of the class sizes whose class occurs in
the password (26 lower / 26 upper / 10 digits / 32 other). -/
def keyspaceSizeSpec (p : List Char) : ℕ :=
  (if p.any char_is_lower then 26 else 0) +
  (if p.any char_is_upper then 26 else 0) +
  (if p.any char_is_digit then 10 else 0) +
  (if p.any (fun c => !(char_is_upper c) && !(char_is_lower c) && !(char_is_digit c))
    then 32 else 0)

/-- Minimum of a nonempty list of rationals (0 for the empty list). -/
def qListMin : List ℚ → ℚ
  | [] => 0
  | x :: xs => xs.foldl min x

/-- The spec-side minimum variant entropy: the minimum over all variants (after
keyboard stripping and dictionary detection) of adjustment + non-repetition
NIST bits of the variant string. -/
def minVariantEntropy (dict_words : List (List Char)) (orig : List Char) : ℚ :=
  qListMin ((find_dict_stage dict_words (keyboard_stage (base_variants orig))).map
    (fun v => v.entropy + get_NIST_num_bits v.password))

/-- The spec-side raw entropy: repetition-aware NIST bits plus the +6
"no dictionary word" credit. -/
def rawEntropy (orig : List Char) : ℚ := get_NIST_num_bits orig true + 6

/-- The spec-side keyspace multiplier `log(keyspaceSize) / log 26`. -/
noncomputable def keyspaceMultiplier (orig : List Char) : ℝ :=
  Real.log (keyspaceSizeSpec orig) / Real.log 26

/-- No common contiguous substring of `t` and `k` is longer than 2. -/
def no_big_common (t k : List Char) : Prop :=
  ∀ u, substr u t → substr u k → u.length ≤ 2

/-! ### Totality: checked variants of the fallible operations

Python raises on `math.log(0)`, on `clean_pass.index(w)` when `w` does not
occur, on out-of-range list indexing, and on `min()` of an empty sequence.
The checked variants below return `none` exactly at those points. -/
/-- Python's `s.index(w)`: `none` when `w` does not occur in `s`. -/
def str_index (w : List Char) : List Char → Option ℕ
  | [] => if w.isPrefixOf [] then some 0 else none
  | c :: t =>
    if w.isPrefixOf (c :: t) then some 0
    else (str_index w t).map (· + 1)

def scan_dict_words_checked (clean_pass : List Char) (n_alpha_chars : ℕ)
    (substr_set : List (List Char)) : List (List Char) → Option Bool
  | [] => some false
  | dict_word :: rest =>
    if dict_word ∈ substr_set ∧ substr dict_word clean_pass then
      if 6 ≤ dict_word.length then some true
      else if dict_word.length * 2 ≤ n_alpha_chars then
        scan_dict_words_checked clean_pass n_alpha_chars substr_set rest
      else
        (str_index dict_word clean_pass).bind (fun start_match =>
          if start_match = 0 then some true
          else (clean_pass[start_match - 1]?).bind (fun prev =>
            if char_is_lower prev = false then some true
            else scan_dict_words_checked clean_pass n_alpha_chars substr_set rest))
    else scan_dict_words_checked clean_pass n_alpha_chars substr_set rest

def dict_words_check_checked (dict_words : List (List Char))
    (cur_pass : PassVariant) : Option PassVariant :=
  let clean_pass := cur_pass.password.filter (fun c => c != NUL)
  let n_alpha_chars := (clean_pass.filter char_is_lower).length
  if 3 ≤ clean_pass.length then
    (scan_dict_words_checked clean_pass n_alpha_chars
      (get_substrings_set clean_pass 3) dict_words).map (fun found =>
        if found then cur_pass else ⟨cur_pass.password, cur_pass.entropy + 6⟩)
  else some cur_pass

def find_dict_stage_checked (dict_words : List (List Char)) :
    List PassVariant → Option (List PassVariant)
  | [] => some []
  | v :: rest =>
    (dict_words_check_checked dict_words v).bind (fun v2 =>
      (find_dict_stage_checked dict_words rest).map (fun rest2 => v2 :: rest2))

/-- The repetition-aware loop with the literal 256-entry `charmult` array and
checked indexing. -/
def nist_rep_loop_checked : List (ℕ × Char) → List ℚ × ℚ → Option (List ℚ × ℚ)
  | [], st => some st
  | ic :: rest, st =>
    (st.1[ic.2.toNat]?).bind (fun m =>
      nist_rep_loop_checked rest
        (st.1.set ic.2.toNat (max (m * 0.75) 0.4),
          st.2 + (if 19 ≤ ic.1 then m
            else if 8 ≤ ic.1 then m * 1.5
            else if 1 ≤ ic.1 then m * 2
            else 4)))

def get_NIST_num_bits_rep_checked (password : List Char) : Option ℚ :=
  (nist_rep_loop_checked password.enum (List.replicate 256 1, 0)).map
    (fun st => st.2)

/-- `min()` of the variant entropies: `none` on an empty collection (Python
`min` raises there). -/
def values_min_checked : List PassVariant → Option ℚ
  | [] => none
  | v :: vs => some (vs.foldl (fun a w => min a w.entropy) v.entropy)

def min_entropy_of_checked (dict_words : List (List Char)) (orig_pass : List Char) :
    Option ℚ :=
  (find_dict_stage_checked dict_words
      (keyboard_stage (base_variants orig_pass))).bind (fun after_dict =>
    (values_min_checked (nist_stage after_dict)).bind (fun min_entropy =>
      (get_NIST_num_bits_rep_checked orig_pass).map (fun rep =>
        if rep + 6 < min_entropy then rep + 6 else min_entropy)))

/-- `get_entropy_bits` with every fallible operation checked: `none` would be
returned if the logarithm argument were zero, if `index` were called on an
absent word, if `charmult` were indexed out of range, or if `min` were taken
over an empty collection. -/
noncomputable def get_entropy_bits_checked (dict_words : List (List Char))
    (password : List Char) : Option ℝ :=
  if password = [] then some 0
  else if n_different_characters password = 1 then some 6
  else if keyspace_size (handle_license_plates password) = 0 then none
  else
    (min_entropy_of_checked dict_words (handle_license_plates password)).map
      (fun m : ℚ => (m : ℝ) *
        (Real.log (keyspace_size (handle_license_plates password)) / Real.log 26))

theorem fupd_same {α : Type} (f : ℕ → α) (i : ℕ) (v : α) : fupd f i v i = v := by
  simp [fupd]

theorem fupd_other {α : Type} (f : ℕ → α) (i j : ℕ) (v : α) (h : j ≠ i) :
    fupd f i v j = f j := by
  simp [fupd, h]

theorem occursAt_le {w s : List Char} {i : ℕ} (h : occursAt w s i) : i ≤ s.length := by
  have := h.1; omega

theorem lcsuff_le_left (s1 s2 : List Char) : ∀ x y, lcsuff s1 s2 x y ≤ x := by
  intro x
  induction x with
  | zero => intro y; simp [lcsuff]
  | succ a ih =>
    intro y
    cases y with
    | zero => simp [lcsuff]
    | succ b =>
      simp only [lcsuff]
      split
      · exact Nat.succ_le_succ (ih b)
      · exact Nat.zero_le _

theorem lcsuff_le_right (s1 s2 : List Char) : ∀ x y, lcsuff s1 s2 x y ≤ y := by
  intro x
  induction x with
  | zero => intro y; simp [lcsuff]
  | succ a ih =>
    intro y
    cases y with
    | zero => simp [lcsuff]
    | succ b =>
      simp only [lcsuff]
      split
      · exact Nat.succ_le_succ (ih b)
      · exact Nat.zero_le _

theorem lcsuff_ge_iff (s1 s2 : List Char) :
    ∀ (K x y : ℕ), K ≤ lcsuff s1 s2 x y ↔
      K ≤ x ∧ K ≤ y ∧ ∀ j < K, s1[x - K + j]? = s2[y - K + j]? := by
  intro K
  induction K with
  | zero => intro x y; simp
  | succ K ih =>
    intro x y
    cases x with
    | zero =>
      simp only [lcsuff]
      constructor
      · intro h; omega
      · intro h; omega
    | succ a =>
      cases y with
      | zero =>
        simp only [lcsuff]
        constructor
        · intro h; omega
        · intro h; omega
      | succ b =>
        simp only [lcsuff]
        split
        · rename_i heq
          constructor
          · intro h
            have h' : K ≤ lcsuff s1 s2 a b := by omega
            obtain ⟨h1, h2, h3⟩ := (ih a b).mp h'
            refine ⟨by omega, by omega, ?_⟩
            intro j hj
            rcases Nat.lt_or_ge j K with hjK | hjK
            · have := h3 j hjK
              have e1 : a + 1 - (K + 1) + j = a - K + j := by omega
              have e2 : b + 1 - (K + 1) + j = b - K + j := by omega
              rw [e1, e2]; exact this
            · have hj' : j = K := by omega
              have e1 : a + 1 - (K + 1) + j = a := by omega
              have e2 : b + 1 - (K + 1) + j = b := by omega
              rw [e1, e2]; exact heq
          · rintro ⟨h1, h2, h3⟩
            have h' : K ≤ lcsuff s1 s2 a b := by
              refine (ih a b).mpr ⟨by omega, by omega, ?_⟩
              intro j hj
              have := h3 j (by omega)
              have e1 : a + 1 - (K + 1) + j = a - K + j := by omega
              have e2 : b + 1 - (K + 1) + j = b - K + j := by omega
              rw [e1, e2] at this; exact this
            omega
        · rename_i hne
          constructor
          · intro h; omega
          · rintro ⟨h1, h2, h3⟩
            exfalso
            have := h3 K (by omega)
            have e1 : a + 1 - (K + 1) + K = a := by omega
            have e2 : b + 1 - (K + 1) + K = b := by omega
            rw [e1, e2] at this
            exact hne this

theorem drop_take_getElem? (l : List Char) (i K j : ℕ) :
    ((l.drop i).take K)[j]? = if j < K then l[i + j]? else none := by
  rw [List.getElem?_take]
  split
  · exact List.getElem?_drop ..
  · rfl

theorem occursAt_iff_pointwise (w s : List Char) (i : ℕ) :
    occursAt w s i ↔ i + w.length ≤ s.length ∧ ∀ j < w.length, s[i + j]? = w[j]? := by
  unfold occursAt
  refine and_congr_right fun hlen => ?_
  constructor
  · intro h j hj
    have := congrArg (fun l => l[j]?) h
    simp only [drop_take_getElem?, if_pos hj] at this
    exact this.symm ▸ this
  · intro h
    apply List.ext_getElem?
    intro n
    rw [drop_take_getElem?]
    split
    · rename_i hn
      exact h n hn
    · rename_i hn
      symm
      rw [List.getElem?_eq_none]
      omega

theorem lcs_inner_cons (m1 : ℕ → ℕ) (x : ℕ) (c1 : Char)
    (st : (ℕ → ℕ) × ℕ × ℕ) (yc : ℕ × Char) (l : List (ℕ × Char)) :
    lcs_inner m1 x c1 st (yc :: l) =
      lcs_inner m1 x c1
        (if c1 = yc.2 then
          (fupd st.1 yc.1 (m1 (yc.1 - 1) + 1),
            if st.2.1 < m1 (yc.1 - 1) + 1 then m1 (yc.1 - 1) + 1 else st.2.1,
            if st.2.1 < m1 (yc.1 - 1) + 1 then x else st.2.2)
        else (fupd st.1 yc.1 0, st.2.1, st.2.2)) l := by
  simp only [lcs_inner, List.foldl_cons]

theorem lcs_inner_invariant (s1 s2 : List Char) (x1 : ℕ) (c1 : Char)
    (hc1 : s1[x1]? = some c1) (m1 : ℕ → ℕ)
    (hm1 : ∀ y ≤ s2.length, m1 y = lcsuff s1 s2 x1 y) (l0 xl0 : ℕ) :
    ∀ (t : List Char) (j : ℕ), s2.drop j = t → j ≤ s2.length →
    ∀ (m2 : ℕ → ℕ) (l xl : ℕ),
      (∀ y ≤ j, m2 y = lcsuff s1 s2 (x1 + 1) y) →
      (∀ y, 1 ≤ y → y ≤ j → lcsuff s1 s2 (x1 + 1) y ≤ l) →
      l0 ≤ l →
      ((l = l0 ∧ xl = xl0) ∨
        (l0 < l ∧ xl = x1 + 1 ∧ ∃ y, 1 ≤ y ∧ y ≤ j ∧ lcsuff s1 s2 (x1 + 1) y = l)) →
      lcsInnerPost s1 s2 x1 l0 xl0
        (lcs_inner m1 (x1 + 1) c1 (m2, l, xl) (List.enumFrom (j + 1) t)) := by
  intro t
  induction t with
  | nil =>
    intro j hdrop hj m2 l xl hm2 hbound hl0 hdisj
    have hjn : j = s2.length := by
      have := List.drop_eq_nil_iff.mp hdrop
      omega
    subst hjn
    simp only [List.enumFrom, lcs_inner, List.foldl_nil]
    exact ⟨hm2, hbound, hl0, hdisj⟩
  | cons c2 t' ih =>
    intro j hdrop hj m2 l xl hm2 hbound hl0 hdisj
    have hjlt : j < s2.length := by
      by_contra hcon
      have : s2.drop j = [] := List.drop_eq_nil_iff.mpr (by omega)
      rw [this] at hdrop
      exact List.noConfusion hdrop
    have hs2j : s2[j]? = some c2 := by
      have h0 : (s2.drop j)[0]? = s2[j + 0]? := List.getElem?_drop ..
      rw [hdrop] at h0
      simpa using h0.symm
    have hdrop' : s2.drop (j + 1) = t' := by
      have : List.drop 1 (List.drop j s2) = List.drop (j + 1) s2 := List.drop_drop 1 j s2
      rw [hdrop] at this
      simpa using this.symm
    have henum : List.enumFrom (j + 1) (c2 :: t') =
        (j + 1, c2) :: List.enumFrom (j + 2) t' := rfl
    rw [henum, lcs_inner_cons]
    simp only
    have hm1j : m1 j = lcsuff s1 s2 x1 j := hm1 j (by omega)
    have hyd : j + 1 - 1 = j := by omega
    rw [hyd]
    by_cases hc : c1 = c2
    · have hval : lcsuff s1 s2 (x1 + 1) (j + 1) = m1 j + 1 := by
        simp only [lcsuff]
        rw [if_pos (by rw [hc1, hs2j, hc]), hm1j]
      rw [if_pos hc]
      by_cases hlv : l < m1 j + 1
      · rw [if_pos hlv, if_pos hlv]
        refine ih (j + 1) hdrop' (by omega) _ _ _ ?_ ?_ (by omega) ?_
        · intro y hy
          rcases Nat.lt_or_ge y (j + 1) with h | h
          · rw [fupd_other _ _ _ _ (by omega)]
            exact hm2 y (by omega)
          · have : y = j + 1 := by omega
            subst this
            rw [fupd_same, hval]
        · intro y h1 h2
          rcases Nat.lt_or_ge y (j + 1) with h | h
          · exact le_trans (hbound y h1 (by omega)) (by omega)
          · have : y = j + 1 := by omega
            subst this
            rw [hval]
        · right
          exact ⟨by omega, rfl, j + 1, by omega, by omega, by rw [hval]⟩
      · rw [if_neg hlv, if_neg hlv]
        refine ih (j + 1) hdrop' (by omega) _ _ _ ?_ ?_ hl0 ?_
        · intro y hy
          rcases Nat.lt_or_ge y (j + 1) with h | h
          · rw [fupd_other _ _ _ _ (by omega)]
            exact hm2 y (by omega)
          · have : y = j + 1 := by omega
            subst this
            rw [fupd_same, hval]
        · intro y h1 h2
          rcases Nat.lt_or_ge y (j + 1) with h | h
          · exact hbound y h1 (by omega)
          · have : y = j + 1 := by omega
            subst this
            rw [hval]; omega
        · rcases hdisj with ⟨h1, h2⟩ | ⟨h1, h2, y, hy1, hy2, hy3⟩
          · exact Or.inl ⟨h1, h2⟩
          · exact Or.inr ⟨h1, h2, y, hy1, by omega, hy3⟩
    · have hval : lcsuff s1 s2 (x1 + 1) (j + 1) = 0 := by
        simp only [lcsuff]
        rw [if_neg]
        rw [hc1, hs2j]
        intro hcon
        exact hc (Option.some.inj hcon)
      rw [if_neg hc]
      refine ih (j + 1) hdrop' (by omega) _ _ _ ?_ ?_ hl0 ?_
      · intro y hy
        rcases Nat.lt_or_ge y (j + 1) with h | h
        · rw [fupd_other _ _ _ _ (by omega)]
          exact hm2 y (by omega)
        · have : y = j + 1 := by omega
          subst this
          rw [fupd_same, hval]
      · intro y h1 h2
        rcases Nat.lt_or_ge y (j + 1) with h | h
        · exact hbound y h1 (by omega)
        · have : y = j + 1 := by omega
          subst this
          rw [hval]; omega
      · rcases hdisj with ⟨h1, h2⟩ | ⟨h1, h2, y, hy1, hy2, hy3⟩
        · exact Or.inl ⟨h1, h2⟩
        · exact Or.inr ⟨h1, h2, y, hy1, by omega, hy3⟩

theorem lcs_outer_cons (s2 : List Char) (st : (ℕ → ℕ) × ℕ × ℕ)
    (xc : ℕ × Char) (l : List (ℕ × Char)) :
    lcs_outer s2 st (xc :: l) =
      lcs_outer s2
        (lcs_inner st.1 xc.1 xc.2 ((fun _ => 0), st.2.1, st.2.2)
          (List.enumFrom 1 s2)) l := by
  simp only [lcs_outer, List.foldl_cons]

theorem lcs_outer_invariant (s1 s2 : List Char) :
    ∀ (t : List Char) (X : ℕ), s1.drop X = t → X ≤ s1.length →
    ∀ (m1 : ℕ → ℕ) (l xl : ℕ),
      (∀ y ≤ s2.length, m1 y = lcsuff s1 s2 X y) →
      lcsOInv s1 s2 X l xl →
      lcsOInv s1 s2 s1.length
        (lcs_outer s2 (m1, l, xl) (List.enumFrom (X + 1) t)).2.1
        (lcs_outer s2 (m1, l, xl) (List.enumFrom (X + 1) t)).2.2 := by
  intro t
  induction t with
  | nil =>
    intro X hdrop hX m1 l xl hm1 hinv
    have hXn : X = s1.length := by
      have := List.drop_eq_nil_iff.mp hdrop
      omega
    subst hXn
    simpa only [List.enumFrom, lcs_outer, List.foldl_nil] using hinv
  | cons c1 t' ih =>
    intro X hdrop hX m1 l xl hm1 hinv
    have hXlt : X < s1.length := by
      by_contra hcon
      have : s1.drop X = [] := List.drop_eq_nil_iff.mpr (by omega)
      rw [this] at hdrop
      exact List.noConfusion hdrop
    have hs1X : s1[X]? = some c1 := by
      have h0 : (s1.drop X)[0]? = s1[X + 0]? := List.getElem?_drop ..
      rw [hdrop] at h0
      simpa using h0.symm
    have hdrop' : s1.drop (X + 1) = t' := by
      have : List.drop 1 (List.drop X s1) = List.drop (X + 1) s1 := List.drop_drop 1 X s1
      rw [hdrop] at this
      simpa using this.symm
    have henum : List.enumFrom (X + 1) (c1 :: t') =
        (X + 1, c1) :: List.enumFrom (X + 2) t' := rfl
    have hpost := lcs_inner_invariant s1 s2 X c1 hs1X m1 hm1 l xl s2 0 rfl
      (Nat.zero_le _) (fun _ => 0) l xl
      (by intro y hy; interval_cases y; simp [lcsuff])
      (by intro y h1 h2; omega)
      (le_refl l)
      (Or.inl ⟨rfl, rfl⟩)
    set st' := lcs_inner m1 (X + 1) c1 ((fun _ => 0), l, xl) (List.enumFrom (0 + 1) s2)
      with hst'
    obtain ⟨hrow, hbound', hll', hdisj'⟩ := hpost
    obtain ⟨hbd, hzero, hexi, hmin⟩ := hinv
    have hinv' : lcsOInv s1 s2 (X + 1) st'.2.1 st'.2.2 := by
      refine ⟨?_, ?_, ?_, ?_⟩
      · intro x y hx hxX hy hyn
        rcases Nat.lt_or_ge x (X + 1) with h | h
        · exact le_trans (hbd x y hx (by omega) hy hyn) hll'
        · have hxx : x = X + 1 := by omega
          subst hxx
          exact hbound' y hy hyn
      · intro hl'
        rcases hdisj' with ⟨h1, h2⟩ | ⟨h1, _, _⟩
        · rw [h2]
          exact hzero (by omega)
        · omega
      · intro hl'
        rcases hdisj' with ⟨h1, h2⟩ | ⟨h1, h2, y, hy1, hy2, hy3⟩
        · obtain ⟨g1, g2, yy, gy1, gy2, gy3⟩ := hexi (by omega)
          rw [h1, h2]
          exact ⟨g1, by omega, yy, gy1, gy2, gy3⟩
        · rw [h2]
          exact ⟨by omega, by omega, y, hy1, hy2, hy3⟩
      · intro hl' x y hx hxxl hy hyn
        rcases hdisj' with ⟨h1, h2⟩ | ⟨h1, h2, _⟩
        · rw [h1]
          rw [h2] at hxxl
          exact hmin (by omega) x y hx hxxl hy hyn
        · rw [h2] at hxxl
          exact lt_of_le_of_lt (hbd x y hx (by omega) hy hyn) h1
    have hgoal := ih (X + 1) hdrop' (by omega) st'.1 st'.2.1 st'.2.2 hrow hinv'
    rw [henum, lcs_outer_cons]
    simpa only [← hst'] using hgoal

theorem longest_common_substring_eq (s1 s2 : List Char) :
    longest_common_substring s1 s2 =
      ((lcs_final s1 s2).2.2 - (lcs_final s1 s2).2.1,
        (s1.drop ((lcs_final s1 s2).2.2 - (lcs_final s1 s2).2.1)).take
          ((lcs_final s1 s2).2.2 - ((lcs_final s1 s2).2.2 - (lcs_final s1 s2).2.1))) := rfl

theorem lcs_final_inv (s1 s2 : List Char) :
    lcsOInv s1 s2 s1.length (lcs_final s1 s2).2.1 (lcs_final s1 s2).2.2 := by
  have h := lcs_outer_invariant s1 s2 s1 0 rfl (Nat.zero_le _) (fun _ => 0) 0 0
    (by intro y hy; cases y <;> simp [lcsuff])
    (by
      refine ⟨?_, fun _ => rfl, ?_, ?_⟩
      · intro x y hx hxX hy hyn; omega
      · intro h; omega
      · intro h; omega)
  simpa only [Nat.zero_add] using h

theorem occursAt_lcsuff {s1 s2 w : List Char} {i1 i2 : ℕ}
    (h1 : occursAt w s1 i1) (h2 : occursAt w s2 i2) :
    w.length ≤ lcsuff s1 s2 (i1 + w.length) (i2 + w.length) := by
  rw [lcsuff_ge_iff]
  obtain ⟨hb1, hp1⟩ := (occursAt_iff_pointwise ..).mp h1
  obtain ⟨hb2, hp2⟩ := (occursAt_iff_pointwise ..).mp h2
  refine ⟨by omega, by omega, ?_⟩
  intro j hj
  have e1 : i1 + w.length - w.length + j = i1 + j := by omega
  have e2 : i2 + w.length - w.length + j = i2 + j := by omega
  rw [e1, e2, hp1 j hj, hp2 j hj]

theorem lcsuff_occursAt {s1 s2 : List Char} {x y K : ℕ}
    (hx : x ≤ s1.length) (hy : y ≤ s2.length) (h : K ≤ lcsuff s1 s2 x y) :
    occursAt ((s1.drop (x - K)).take K) s1 (x - K) ∧
    occursAt ((s1.drop (x - K)).take K) s2 (y - K) := by
  obtain ⟨hKx, hKy, hpw⟩ := (lcsuff_ge_iff ..).mp h
  have hlen : ((s1.drop (x - K)).take K).length = K := by
    simp only [List.length_take, List.length_drop]
    omega
  constructor
  · rw [occursAt_iff_pointwise, hlen]
    refine ⟨by omega, ?_⟩
    intro j hj
    rw [drop_take_getElem?, if_pos hj]
  · rw [occursAt_iff_pointwise, hlen]
    refine ⟨by omega, ?_⟩
    intro j hj
    rw [drop_take_getElem?, if_pos hj]
    rw [← hpw j hj]

/-- Full functional characterisation of `longest_common_substring`:
the returned string occurs in `s1` at the returned offset, occurs in `s2`,
has maximal length among common contiguous substrings, and among occurrences
in `s1` of a maximal common substring the returned offset is least. -/
theorem lcs_main (s1 s2 : List Char) :
    occursAt (longest_common_substring s1 s2).2 s1 (longest_common_substring s1 s2).1 ∧
    substr (longest_common_substring s1 s2).2 s2 ∧
    (∀ u, substr u s1 → substr u s2 →
      u.length ≤ (longest_common_substring s1 s2).2.length) ∧
    (∀ i, i + (longest_common_substring s1 s2).2.length ≤ s1.length →
      substr ((s1.drop i).take (longest_common_substring s1 s2).2.length) s2 →
      (longest_common_substring s1 s2).1 ≤ i) := by
  obtain ⟨hbd, hzero, hexi, hmin⟩ := lcs_final_inv s1 s2
  rcases Nat.eq_zero_or_pos (lcs_final s1 s2).2.1 with hL | hL
  · have hxl : (lcs_final s1 s2).2.2 = 0 := hzero hL
    have hres : longest_common_substring s1 s2 = (0, []) := by
      rw [longest_common_substring_eq, hL, hxl]
      simp
    rw [hres]
    simp only
    refine ⟨⟨by simp, by simp⟩, ⟨0, by simp [occursAt]⟩, ?_, ?_⟩
    · intro u hu1 hu2
      by_contra hcon
      have hu : 1 ≤ u.length := by omega
      obtain ⟨i1, ho1⟩ := hu1
      obtain ⟨i2, ho2⟩ := hu2
      have hle := occursAt_lcsuff ho1 ho2
      have hb1 := ho1.1
      have hb2 := ho2.1
      have := hbd (i1 + u.length) (i2 + u.length) (by omega) (by omega) (by omega) (by omega)
      omega
    · intro i _ _
      exact Nat.zero_le i
  · obtain ⟨hxl1, hxlN, y, hy1, hyN, hyL⟩ := hexi hL
    have hLxl : (lcs_final s1 s2).2.1 ≤ (lcs_final s1 s2).2.2 := by
      have := lcsuff_le_left s1 s2 (lcs_final s1 s2).2.2 y
      omega
    have hLy : (lcs_final s1 s2).2.1 ≤ y := by
      have := lcsuff_le_right s1 s2 (lcs_final s1 s2).2.2 y
      omega
    have hxle : (lcs_final s1 s2).2.2 - ((lcs_final s1 s2).2.2 - (lcs_final s1 s2).2.1)
        = (lcs_final s1 s2).2.1 := by omega
    have hres : longest_common_substring s1 s2 =
        ((lcs_final s1 s2).2.2 - (lcs_final s1 s2).2.1,
          (s1.drop ((lcs_final s1 s2).2.2 - (lcs_final s1 s2).2.1)).take
            (lcs_final s1 s2).2.1) := by
      rw [longest_common_substring_eq, hxle]
    have hocc := lcsuff_occursAt hxlN hyN (le_of_eq hyL.symm)
    have hlen : ((s1.drop ((lcs_final s1 s2).2.2 - (lcs_final s1 s2).2.1)).take
        (lcs_final s1 s2).2.1).length = (lcs_final s1 s2).2.1 := by
      simp only [List.length_take, List.length_drop]
      omega
    rw [hres]
    simp only
    refine ⟨hocc.1, ⟨y - (lcs_final s1 s2).2.1, hocc.2⟩, ?_, ?_⟩
    · intro u hu1 hu2
      rw [hlen]
      rcases Nat.eq_zero_or_pos u.length with hu | hu
      · omega
      · obtain ⟨i1, ho1⟩ := hu1
        obtain ⟨i2, ho2⟩ := hu2
        have hle := occursAt_lcsuff ho1 ho2
        have hb1 := ho1.1
        have hb2 := ho2.1
        have := hbd (i1 + u.length) (i2 + u.length) (by omega) (by omega) (by omega) (by omega)
        omega
    · intro i hi hsub
      rw [hlen] at hi hsub
      have hulen : ((s1.drop i).take (lcs_final s1 s2).2.1).length
          = (lcs_final s1 s2).2.1 := by
        simp only [List.length_take, List.length_drop]
        omega
      obtain ⟨i2, ho2⟩ := hsub
      have ho1 : occursAt ((s1.drop i).take (lcs_final s1 s2).2.1) s1 i := by
        refine ⟨by rw [hulen]; omega, by rw [hulen]⟩
      have hle := occursAt_lcsuff ho1 ho2
      rw [hulen] at hle
      have hb2 := ho2.1
      rw [hulen] at hb2
      have hub := hbd (i + (lcs_final s1 s2).2.1) (i2 + (lcs_final s1 s2).2.1)
        (by omega) (by omega) (by omega) (by omega)
      have heq : lcsuff s1 s2 (i + (lcs_final s1 s2).2.1) (i2 + (lcs_final s1 s2).2.1)
          = (lcs_final s1 s2).2.1 := by omega
      by_contra hcon
      have hlt : i + (lcs_final s1 s2).2.1 < (lcs_final s1 s2).2.2 := by omega
      have := hmin hL (i + (lcs_final s1 s2).2.1) (i2 + (lcs_final s1 s2).2.1)
        (by omega) hlt (by omega) (by omega)
      omega

theorem lcs_start_len_le (s1 s2 : List Char) :
    (longest_common_substring s1 s2).1 + (longest_common_substring s1 s2).2.length
      ≤ s1.length := by
  have h := (lcs_main s1 s2).1
  exact h.1

theorem lcs_nil_left (s2 : List Char) : longest_common_substring [] s2 = (0, []) := rfl

theorem lcs_outer_nil2 :
    ∀ (l : List (ℕ × Char)) (st : (ℕ → ℕ) × ℕ × ℕ), (lcs_outer [] st l).2 = st.2 := by
  intro l
  induction l with
  | nil => intro st; rfl
  | cons a t ih =>
    intro st
    rw [lcs_outer_cons]
    rw [ih]
    rfl

theorem lcs_nil_right (s1 : List Char) : longest_common_substring s1 [] = (0, []) := by
  rw [longest_common_substring_eq]
  have h : (lcs_final s1 []).2 = (0, 0) := lcs_outer_nil2 _ _
  have h1 : (lcs_final s1 []).2.1 = 0 := by rw [h]
  have h2 : (lcs_final s1 []).2.2 = 0 := by rw [h]
  rw [h1, h2]
  simp

theorem remove_sequence_of_small (s k : List Char)
    (h : (longest_common_substring s k).2.length ≤ 2) : remove_sequence s k = s := by
  rw [remove_sequence]
  rw [if_neg (by omega)]

theorem remove_sequence_of_big (s k : List Char)
    (h : 2 < (longest_common_substring s k).2.length) :
    remove_sequence s k =
      remove_sequence (s.take (longest_common_substring s k).1) k ++ [NUL, NUL] ++
        remove_sequence (s.drop ((longest_common_substring s k).1 +
          (longest_common_substring s k).2.length)) k := by
  conv_lhs => rw [remove_sequence]
  rw [if_pos h]

/-! ### Claim-side formulations -/
theorem char_toNat_inj {a b : Char} (h : a.toNat = b.toNat) : a = b := by
  have h2 := congrArg Char.ofNat h
  rwa [Char.ofNat_toNat, Char.ofNat_toNat] at h2

theorem nist_rep_fold (p : List Char) : ∀ (i : ℕ) (m : ℕ → ℚ) (r : ℚ),
    (List.foldl (fun st ic =>
      let charmult := st.1
      let result := st.2
      let tempchr := ic.2.toNat
      let add : ℚ :=
        if 19 ≤ ic.1 then charmult tempchr
        else if 8 ≤ ic.1 then charmult tempchr * 1.5
        else if 1 ≤ ic.1 then charmult tempchr * 2
        else 4
      (fupd charmult tempchr (max (charmult tempchr * 0.75) 0.4), result + add))
      (m, r) (List.enumFrom i p)).2
    = r + nistRepSpecAux (fun c => m c.toNat) i p := by
  induction p with
  | nil => intro i m r; simp [nistRepSpecAux]
  | cons c rest ih =>
    intro i m r
    have henum : List.enumFrom i (c :: rest) = (i, c) :: List.enumFrom (i + 1) rest := rfl
    rw [henum, List.foldl_cons]
    simp only
    rw [ih]
    have hfun : (fun d => fupd m c.toNat (max (m c.toNat * 0.75) 0.4) d.toNat)
        = (fun d => if d = c then max ((fun c' : Char => m c'.toNat) c * 0.75) 0.4
            else (fun c' : Char => m c'.toNat) d) := by
      funext d
      by_cases hd : d = c
      · subst hd
        simp [fupd]
      · rw [fupd_other _ _ _ _ (fun hcon => hd (char_toNat_inj hcon))]
        simp [hd]
    rw [nistRepSpecAux, ← hfun]
    have hadd : (if 19 ≤ i then m c.toNat
        else if 8 ≤ i then m c.toNat * 1.5
        else if 1 ≤ i then m c.toNat * 2
        else (4 : ℚ))
        = (if i = 0 then 4
            else if i < 8 then m c.toNat * 2
            else if i < 19 then m c.toNat * 1.5
            else m c.toNat * 1) := by
      rcases Nat.lt_or_ge i 1 with h1 | h1
      · have : i = 0 := by omega
        subst this
        norm_num
      · rcases Nat.lt_or_ge i 8 with h8 | h8
        · rw [if_neg (by omega), if_neg (by omega), if_pos h1,
            if_neg (by omega), if_pos h8]
        · rcases Nat.lt_or_ge i 19 with h19 | h19
          · rw [if_neg (by omega), if_pos h8, if_neg (by omega), if_neg (by omega),
              if_pos h19]
          · rw [if_pos h19, if_neg (by omega), if_neg (by omega), if_neg (by omega)]
            ring
    rw [hadd]
    ring

/-- C2: the non-repetition mode of `get_NIST_num_bits` equals the closed-form
length-banded formula (0 / 4 / 4+(n−1)·2 / 4+7·2+(n−8)·1.5 / 4+7·2+12·1.5+(n−20)·1),
and the repetition-aware mode equals the per-position sum with the decaying
per-character multiplier `max(mult·0.75, 0.4)` starting at 1. -/
theorem claim2_nist_positional_entropy (p : List Char) :
    get_NIST_num_bits p false = nistBandedFormula p.length ∧
    get_NIST_num_bits p true = nistRepSpec p := by
  constructor
  · unfold get_NIST_num_bits nistBandedFormula
    rw [if_neg (by simp)]
    by_cases h20 : 20 < p.length
    · rw [if_pos h20, if_neg (show ¬p.length = 0 by omega),
        if_neg (show ¬p.length = 1 by omega), if_neg (show ¬p.length ≤ 8 by omega),
        if_neg (show ¬p.length ≤ 20 by omega)]
      ring
    · by_cases h8 : 8 < p.length
      · rw [if_neg h20, if_pos h8, if_neg (show ¬p.length = 0 by omega),
          if_neg (show ¬p.length = 1 by omega), if_neg (show ¬p.length ≤ 8 by omega),
          if_pos (show p.length ≤ 20 by omega)]
      · by_cases h1 : 1 < p.length
        · rw [if_neg h20, if_neg h8, if_pos h1, if_neg (show ¬p.length = 0 by omega),
            if_neg (show ¬p.length = 1 by omega), if_pos (show p.length ≤ 8 by omega)]
        · by_cases heq1 : p.length = 1
          · rw [if_neg h20, if_neg h8, if_neg h1, if_pos heq1,
              if_neg (show ¬p.length = 0 by omega), if_pos heq1]
          · have h0 : p.length = 0 := by omega
            rw [if_neg h20, if_neg h8, if_neg h1, if_neg heq1, if_pos h0]
  · unfold get_NIST_num_bits
    rw [if_pos rfl]
    have he : p.enum = List.enumFrom 0 p := rfl
    rw [he, nist_rep_fold p 0 (fun _ => 1) 0, zero_add]
    rfl

theorem claim2_nist_positional_entropy_witness :
    get_NIST_num_bits "aab".toList false = nistBandedFormula 3 ∧
    get_NIST_num_bits "aab".toList true = nistRepSpec "aab".toList := by
  have h := claim2_nist_positional_entropy "aab".toList
  simpa using h

/-- C7 counterexample: in leet-speak substitution B (`maketrans('@!$1234567890',
'aislzeasgtbgo')`) the digit `2` maps to `z`, not `s`; in the lowercased
password `"a2"` variant B carries `z` at the position of the `2`. -/
theorem claim7_counterexample :
    ("a2".toList.map (maketrans LEET_FROM LEET_TO_B))[1]? = some 'z' ∧
    maketrans LEET_FROM LEET_TO_B '2' = 'z' ∧ ('z' : Char) ≠ 's' := by decide

theorem trans_lookup_not_mem (c : Char) :
    ∀ (t : List (Char × Char)), (∀ p ∈ t, c ≠ p.1) → trans_lookup t c = c := by
  intro t
  induction t with
  | nil => intro _; rfl
  | cons p rest ih =>
    intro h
    show (if c = p.1 then p.2 else trans_lookup rest c) = c
    rw [if_neg (h p (List.mem_cons_self p rest))]
    exact ih fun q hq => h q (List.mem_cons_of_mem p hq)

/-- C7 (amended): substitution B is the same character map as substitution A
except that `1` maps to `l` instead of `i`; `2` maps to `z` in both maps, and
for every lowercased password containing the digit `2`, variant B's string has
`z` at that position. -/
theorem claim7_leet_b_amended (c : Char) (hc : c ≠ '1') (p : List Char) (i : ℕ)
    (h2 : p[i]? = some '2') :
    maketrans LEET_FROM LEET_TO_B c = maketrans LEET_FROM LEET_TO_A c ∧
    maketrans LEET_FROM LEET_TO_B '1' = 'l' ∧
    maketrans LEET_FROM LEET_TO_A '1' = 'i' ∧
    maketrans LEET_FROM LEET_TO_B '2' = 'z' ∧
    maketrans LEET_FROM LEET_TO_A '2' = 'z' ∧
    (p.map (maketrans LEET_FROM LEET_TO_B))[i]? = some 'z' := by
  refine ⟨?_, by decide, by decide, by decide, by decide, ?_⟩
  · by_cases hmem : c ∈ LEET_FROM
    · have hfrm : LEET_FROM = ['@', '!', '$', '1', '2', '3', '4', '5', '6', '7',
        '8', '9', '0'] := by decide
      rw [hfrm] at hmem
      fin_cases hmem <;> first | (exact absurd rfl hc) | decide
    · have hB := trans_lookup_not_mem c (LEET_FROM.zip LEET_TO_B)
        (fun q hq => fun hcon => hmem (hcon ▸ (List.of_mem_zip hq).1))
      have hA := trans_lookup_not_mem c (LEET_FROM.zip LEET_TO_A)
        (fun q hq => fun hcon => hmem (hcon ▸ (List.of_mem_zip hq).1))
      show trans_lookup (LEET_FROM.zip LEET_TO_B) c
        = trans_lookup (LEET_FROM.zip LEET_TO_A) c
      rw [hA, hB]
  · rw [List.getElem?_map, h2]
    decide

theorem claim7_leet_b_amended_witness :
    maketrans LEET_FROM LEET_TO_B '2' = maketrans LEET_FROM LEET_TO_A '2' ∧
    maketrans LEET_FROM LEET_TO_B '1' = 'l' ∧
    maketrans LEET_FROM LEET_TO_A '1' = 'i' ∧
    maketrans LEET_FROM LEET_TO_B '2' = 'z' ∧
    maketrans LEET_FROM LEET_TO_A '2' = 'z' ∧
    ("a2".toList.map (maketrans LEET_FROM LEET_TO_B))[1]? = some 'z' :=
  claim7_leet_b_amended '2' (by decide) "a2".toList 1 (by decide)

/-- C5 counterexample: the span `"12-AB-34"` (uppercase letters, hence zero
lowercase letters among the captured groups) is NOT normalised by
`handle_license_plates`; the password keeps its 8-character literal form. -/
theorem claim5_counterexample :
    handle_license_plates "12-AB-34".toList = "12-AB-34".toList ∧
    "12-AB-34".toList ≠ "12AB34".toList := by decide

/-- C5 (amended): a licence-plate span is collapsed exactly when the captured
groups contain exactly two lowercase letters; so `"12-ab-34"` (lowercase) is
replaced by `"12ab34"` and is scored as that 6-character normalised form, while
`"12-AB-34"` is left alone. -/
theorem claim5_license_plate_amended (p : List Char) (i : ℕ)
    (hfind : find_plate p = some i)
    (hcount : ((plate_groups p i).filter char_is_lower).length = 2)
    (dict_words : List (List Char)) :
    handle_license_plates p = p.take i ++ plate_groups p i ++ p.drop (i + 8) ∧
    handle_license_plates "12-ab-34".toList = "12ab34".toList ∧
    get_entropy_bits dict_words "12-ab-34".toList =
      get_entropy_bits dict_words "12ab34".toList := by
  refine ⟨?_, by decide, ?_⟩
  · unfold handle_license_plates
    rw [hfind]
    simp only
    rw [if_pos hcount]
  · have hL : handle_license_plates "12-ab-34".toList = "12ab34".toList := by decide
    have hR : handle_license_plates "12ab34".toList = "12ab34".toList := by decide
    unfold get_entropy_bits
    rw [if_neg (show ¬("12-ab-34".toList = []) from by decide),
      if_neg (show ¬(n_different_characters "12-ab-34".toList = 1) from by decide),
      if_neg (show ¬("12ab34".toList = []) from by decide),
      if_neg (show ¬(n_different_characters "12ab34".toList = 1) from by decide),
      hL, hR]

theorem claim5_license_plate_amended_witness :
    handle_license_plates "12-ab-34".toList =
      "12-ab-34".toList.take 0 ++ plate_groups "12-ab-34".toList 0 ++
        "12-ab-34".toList.drop 8 ∧
    handle_license_plates "12-ab-34".toList = "12ab34".toList ∧
    get_entropy_bits [] "12-ab-34".toList = get_entropy_bits [] "12ab34".toList :=
  claim5_license_plate_amended "12-ab-34".toList 0 (by decide) (by decide) []

/-! ### First occurrences -/
theorem isPrefixOf_iff_take (w : List Char) :
    ∀ (s : List Char), w.isPrefixOf s = true ↔ s.take w.length = w := by
  induction w with
  | nil => intro s; simp [List.isPrefixOf]
  | cons a w ih =>
    intro s
    cases s with
    | nil => simp [List.isPrefixOf]
    | cons b t =>
      simp only [List.isPrefixOf, List.length_cons, List.take_succ_cons,
        Bool.and_eq_true, beq_iff_eq, List.cons.injEq, ih t]
      constructor
      · rintro ⟨h1, h2⟩; exact ⟨h1.symm, h2⟩
      · rintro ⟨h1, h2⟩; exact ⟨h1.symm, h2⟩

theorem occursAt_zero_iff (w s : List Char) :
    occursAt w s 0 ↔ w.length ≤ s.length ∧ s.take w.length = w := by
  unfold occursAt
  simp

theorem occursAt_cons_succ (w t : List Char) (c : Char) (j : ℕ) :
    occursAt w (c :: t) (j + 1) ↔ occursAt w t j := by
  unfold occursAt
  simp only [List.length_cons, List.drop_succ_cons]
  constructor
  · rintro ⟨h1, h2⟩
    exact ⟨by omega, h2⟩
  · rintro ⟨h1, h2⟩
    exact ⟨by omega, h2⟩

theorem occursAt_nil (w : List Char) (i : ℕ) (h : occursAt w [] i) : w = [] ∧ i = 0 := by
  obtain ⟨h1, h2⟩ := h
  simp only [List.length_nil] at h1
  have hw : w.length = 0 := by omega
  have hi : i = 0 := by omega
  exact ⟨List.length_eq_zero.mp hw, hi⟩

theorem str_find_first (w : List Char) :
    ∀ (s : List Char), substr w s →
      occursAt w s (str_find w s) ∧ ∀ j < str_find w s, ¬ occursAt w s j := by
  intro s
  induction s with
  | nil =>
    intro hsub
    obtain ⟨i, hi⟩ := hsub
    obtain ⟨hw, hi0⟩ := occursAt_nil w i hi
    subst hw
    constructor
    · simp [occursAt, str_find]
    · intro j hj
      have h0 : str_find ([] : List Char) ([] : List Char) = 0 := rfl
      omega
  | cons c t ih =>
    intro hsub
    by_cases hp : w.isPrefixOf (c :: t)
    · have hfind : str_find w (c :: t) = 0 := by
        unfold str_find
        rw [if_pos hp]
      rw [hfind]
      refine ⟨?_, by omega⟩
      rw [occursAt_zero_iff]
      have htake := (isPrefixOf_iff_take w (c :: t)).mp hp
      refine ⟨?_, htake⟩
      have hlen : ((c :: t).take w.length).length = w.length := by rw [htake]
      simp only [List.length_take] at hlen
      omega
    · have hfind : str_find w (c :: t) = str_find w t + 1 := by
        simp only [str_find]
        rw [if_neg hp]
      have hsubt : substr w t := by
        obtain ⟨i, hi⟩ := hsub
        cases i with
        | zero =>
          exfalso
          rw [occursAt_zero_iff] at hi
          exact hp ((isPrefixOf_iff_take w (c :: t)).mpr hi.2)
        | succ j =>
          exact ⟨j, (occursAt_cons_succ w t c j).mp hi⟩
      obtain ⟨hocc, hmin⟩ := ih hsubt
      rw [hfind]
      constructor
      · exact (occursAt_cons_succ w t c _).mpr hocc
      · intro j hj
        cases j with
        | zero =>
          intro hcon
          rw [occursAt_zero_iff] at hcon
          exact hp ((isPrefixOf_iff_take w (c :: t)).mpr hcon.2)
        | succ j2 =>
          intro hcon
          exact hmin j2 (by omega) ((occursAt_cons_succ w t c j2).mp hcon)

theorem exists_cons_of_not_head {α : Type} (P : α → Prop) (w : α) (rest : List α)
    (hw : ¬ P w) : (∃ u ∈ w :: rest, P u) ↔ (∃ u ∈ rest, P u) := by
  constructor
  · rintro ⟨u, hu, hP⟩
    rcases List.mem_cons.mp hu with h | h
    · exact absurd (h ▸ hP) hw
    · exact ⟨u, h, hP⟩
  · rintro ⟨u, hu, hP⟩
    exact ⟨u, List.mem_cons_of_mem w hu, hP⟩

theorem scan_dict_words_iff (clean : List Char) :
    ∀ words, scan_dict_words clean (clean.filter char_is_lower).length
      (get_substrings_set clean 3) words = true ↔
      ∃ w ∈ words, word_accepted clean w := by
  intro words
  induction words with
  | nil => simp [scan_dict_words]
  | cons w rest ih =>
    simp only [scan_dict_words]
    by_cases h1 : w ∈ get_substrings_set clean 3 ∧ substr w clean
    · rw [if_pos h1]
      by_cases h6 : 6 ≤ w.length
      · rw [if_pos h6]
        simp only [true_iff]
        exact ⟨w, List.mem_cons_self w rest, h1.1, h1.2, Or.inl h6⟩
      · rw [if_neg h6]
        by_cases hna : w.length * 2 ≤ (clean.filter char_is_lower).length
        · rw [if_pos hna, ih]
          rw [exists_cons_of_not_head]
          rintro ⟨-, -, hor⟩
          rcases hor with h | ⟨hlt, -⟩
          · exact h6 h
          · omega
        · rw [if_neg hna]
          by_cases hz : str_find w clean = 0
          · rw [if_pos hz]
            simp only [true_iff]
            exact ⟨w, List.mem_cons_self w rest, h1.1, h1.2,
              Or.inr ⟨by omega, Or.inl hz⟩⟩
          · rw [if_neg hz]
            by_cases hprev : char_is_lower (clean.getD (str_find w clean - 1) ' ')
                = false
            · rw [if_pos hprev]
              simp only [true_iff]
              exact ⟨w, List.mem_cons_self w rest, h1.1, h1.2,
                Or.inr ⟨by omega, Or.inr hprev⟩⟩
            · rw [if_neg hprev, ih]
              rw [exists_cons_of_not_head]
              rintro ⟨-, -, hor⟩
              rcases hor with h | ⟨-, hz0 | hpf⟩
              · exact h6 h
              · exact hz hz0
              · exact hprev hpf
    · rw [if_neg h1, ih]
      rw [exists_cons_of_not_head]
      rintro ⟨hm, hs, -⟩
      exact h1 ⟨hm, hs⟩

/-- C3 counterexample: for the variant `"ab"` (clean string shorter than 3) and
an empty word list, no word is accepted, yet the dictionary stage does NOT add
the +6 bonus, contradicting the claimed "if and only if". -/
theorem claim3_counterexample :
    (find_dict_stage [] [⟨"ab".toList, 0⟩]).map PassVariant.entropy = [0] ∧
    (∀ w : List Char, w ∈ ([] : List (List Char)) →
      ¬ word_accepted "ab".toList w) ∧
    (0 : ℚ) ≠ 0 + 6 := by
  refine ⟨by decide, fun w hw => absurd hw (List.not_mem_nil w), by norm_num⟩

/-- C3 (amended): the dictionary stage preserves the variant string, and it
increments the adjustment by exactly 6 if and only if the sentinel-stripped
clean string has length at least 3 AND no word of the injected list is
accepted; `str_find` used in the acceptance condition is indeed the first
occurrence. -/
theorem claim3_dict_bonus_amended (dict_words : List (List Char)) (v : PassVariant) :
    (dict_words_check dict_words v).password = v.password ∧
    (dict_words_check dict_words v).entropy =
      (if 3 ≤ (v.password.filter (fun c => c != NUL)).length ∧
          ∀ w ∈ dict_words, ¬ word_accepted (v.password.filter (fun c => c != NUL)) w
        then v.entropy + 6 else v.entropy) ∧
    (∀ w, substr w (v.password.filter (fun c => c != NUL)) →
      occursAt w (v.password.filter (fun c => c != NUL))
        (str_find w (v.password.filter (fun c => c != NUL))) ∧
      ∀ j < str_find w (v.password.filter (fun c => c != NUL)),
        ¬ occursAt w (v.password.filter (fun c => c != NUL)) j) := by
  refine ⟨?_, ?_, fun w hw => str_find_first w _ hw⟩
  · unfold dict_words_check
    simp only
    split_ifs <;> rfl
  · unfold dict_words_check
    simp only
    by_cases h3 : 3 ≤ (v.password.filter (fun c => c != NUL)).length
    · rw [if_pos h3]
      by_cases hscan : scan_dict_words (v.password.filter (fun c => c != NUL))
          ((v.password.filter (fun c => c != NUL)).filter char_is_lower).length
          (get_substrings_set (v.password.filter (fun c => c != NUL)) 3)
          dict_words = true
      · have hcond : ¬(3 ≤ (v.password.filter (fun c => c != NUL)).length ∧
            ∀ w ∈ dict_words,
              ¬ word_accepted (v.password.filter (fun c => c != NUL)) w) := by
          rintro ⟨-, hall⟩
          obtain ⟨w, hmem, hacc⟩ := (scan_dict_words_iff _ dict_words).mp hscan
          exact hall w hmem hacc
        rw [if_pos hscan, if_neg hcond]
      · have hcond : 3 ≤ (v.password.filter (fun c => c != NUL)).length ∧
            ∀ w ∈ dict_words,
              ¬ word_accepted (v.password.filter (fun c => c != NUL)) w := by
          refine ⟨h3, fun w hmem hacc => hscan ?_⟩
          exact (scan_dict_words_iff _ dict_words).mpr ⟨w, hmem, hacc⟩
        rw [if_neg hscan, if_pos hcond]
    · rw [if_neg h3, if_neg (fun hcon => h3 hcon.1)]
  

theorem claim3_dict_bonus_amended_witness :
    (dict_words_check [] ⟨"abc".toList, 0⟩).password = "abc".toList ∧
    (dict_words_check [] ⟨"abc".toList, 0⟩).entropy =
      (if 3 ≤ ("abc".toList.filter (fun c => c != NUL)).length ∧
          ∀ w ∈ ([] : List (List Char)),
            ¬ word_accepted ("abc".toList.filter (fun c => c != NUL)) w
        then (0 : ℚ) + 6 else 0) ∧
    (∀ w, substr w ("abc".toList.filter (fun c => c != NUL)) →
      occursAt w ("abc".toList.filter (fun c => c != NUL))
        (str_find w ("abc".toList.filter (fun c => c != NUL))) ∧
      ∀ j < str_find w ("abc".toList.filter (fun c => c != NUL)),
        ¬ occursAt w ("abc".toList.filter (fun c => c != NUL)) j) :=
  claim3_dict_bonus_amended [] ⟨"abc".toList, 0⟩

/-! ### Non-negativity -/
theorem nistRepSpecAux_nonneg :
    ∀ (p : List Char) (i : ℕ) (m : Char → ℚ), (∀ c, 0 ≤ m c) →
      0 ≤ nistRepSpecAux m i p := by
  intro p
  induction p with
  | nil => intro i m hm; simp [nistRepSpecAux]
  | cons c rest ih =>
    intro i m hm
    rw [nistRepSpecAux]
    have hterm : (0 : ℚ) ≤ (if i = 0 then 4
        else if i < 8 then m c * 2
        else if i < 19 then m c * 1.5
        else m c * 1) := by
      split_ifs
      · norm_num
      · exact mul_nonneg (hm c) (by norm_num)
      · exact mul_nonneg (hm c) (by norm_num)
      · exact mul_nonneg (hm c) (by norm_num)
    have hrec := ih (i + 1)
      (fun d => if d = c then max (m c * 0.75) 0.4 else m d)
      (by
        intro d
        show (0 : ℚ) ≤ if d = c then max (m c * 0.75) 0.4 else m d
        by_cases hd : d = c
        · rw [if_pos hd]
          have h04 : (0 : ℚ) ≤ 0.4 := by norm_num
          exact le_trans h04 (le_max_right _ _)
        · rw [if_neg hd]
          exact hm d)
    linarith

theorem get_NIST_num_bits_nonneg (p : List Char) (b : Bool) :
    0 ≤ get_NIST_num_bits p b := by
  cases b with
  | false =>
    unfold get_NIST_num_bits
    rw [if_neg (by simp)]
    by_cases h20 : 20 < p.length
    · rw [if_pos h20]
      have hc : (20 : ℚ) < (p.length : ℚ) := by exact_mod_cast h20
      linarith
    · rw [if_neg h20]
      by_cases h8 : 8 < p.length
      · rw [if_pos h8]
        have hc : (8 : ℚ) < (p.length : ℚ) := by exact_mod_cast h8
        linarith
      · rw [if_neg h8]
        by_cases h1 : 1 < p.length
        · rw [if_pos h1]
          have hc : (1 : ℚ) < (p.length : ℚ) := by exact_mod_cast h1
          linarith
        · rw [if_neg h1]
          split_ifs <;> norm_num
  | true =>
    unfold get_NIST_num_bits
    rw [if_pos rfl]
    have he : p.enum = List.enumFrom 0 p := rfl
    rw [he, nist_rep_fold p 0 (fun _ => 1) 0, zero_add]
    exact nistRepSpecAux_nonneg p 0 (fun _ => 1) (fun _ => by norm_num)

theorem kmInsert_entropy_nonneg :
    ∀ (d : List PassVariant) (v : PassVariant), (∀ u ∈ d, 0 ≤ u.entropy) →
      0 ≤ v.entropy → ∀ u ∈ kmInsert d v, 0 ≤ u.entropy := by
  intro d
  induction d with
  | nil =>
    intro v _ hv u hu
    rw [kmInsert] at hu
    rcases List.mem_singleton.mp hu with h
    rw [h]; exact hv
  | cons w ws ih =>
    intro v hd hv u hu
    rw [kmInsert] at hu
    split_ifs at hu
    · rcases List.mem_cons.mp hu with h | h
      · rw [h]; exact hv
      · exact hd u (List.mem_cons_of_mem w h)
    · rcases List.mem_cons.mp hu with h | h
      · rw [h]; exact hd w (List.mem_cons_self w ws)
      · exact hd u (List.mem_cons_of_mem w h)
    · rcases List.mem_cons.mp hu with h | h
      · rw [h]; exact hd w (List.mem_cons_self w ws)
      · exact ih v (fun z hz => hd z (List.mem_cons_of_mem w hz)) hv u h

theorem base_variants_nonneg (orig : List Char) :
    ∀ u ∈ base_variants orig, 0 ≤ u.entropy := by
  unfold base_variants
  simp only
  apply kmInsert_entropy_nonneg
  · apply kmInsert_entropy_nonneg
    · apply kmInsert_entropy_nonneg
      · apply kmInsert_entropy_nonneg
        · intro u hu; exact absurd hu (List.not_mem_nil u)
        · norm_num
      · norm_num [reverse_password]
    · norm_num
  · norm_num

theorem keyboard_stage_nonneg (d : List PassVariant)
    (hd : ∀ u ∈ d, 0 ≤ u.entropy) : ∀ u ∈ keyboard_stage d, 0 ≤ u.entropy := by
  unfold keyboard_stage
  suffices h : ∀ (l acc : List PassVariant), (∀ u ∈ l, 0 ≤ u.entropy) →
      (∀ u ∈ acc, 0 ≤ u.entropy) →
      ∀ u ∈ l.foldl (fun acc cur_pass =>
        if cur_pass.password ≠ remove_all_sequences cur_pass.password then
          kmInsert acc ⟨remove_all_sequences cur_pass.password, cur_pass.entropy⟩
        else acc) acc, 0 ≤ u.entropy by
    exact h d d hd hd
  intro l
  induction l with
  | nil => intro acc _ hacc u hu; exact hacc u hu
  | cons w ws ih =>
    intro acc hl hacc u hu
    rw [List.foldl_cons] at hu
    refine ih _ (fun z hz => hl z (List.mem_cons_of_mem w hz)) ?_ u hu
    intro z hz
    split_ifs at hz
    · exact kmInsert_entropy_nonneg acc
        ⟨remove_all_sequences w.password, w.entropy⟩ hacc
        (hl w (List.mem_cons_self w ws)) z hz
    · exact hacc z hz

theorem find_dict_stage_nonneg (dict_words : List (List Char))
    (d : List PassVariant) (hd : ∀ u ∈ d, 0 ≤ u.entropy) :
    ∀ u ∈ find_dict_stage dict_words d, 0 ≤ u.entropy := by
  intro u hu
  obtain ⟨v, hv, huv⟩ := List.mem_map.mp hu
  have hv0 := hd v hv
  rw [← huv]
  unfold dict_words_check
  simp only
  split_ifs
  · exact hv0
  · show (0 : ℚ) ≤ v.entropy + 6
    linarith
  · exact hv0

theorem nist_stage_nonneg (d : List PassVariant)
    (hd : ∀ u ∈ d, 0 ≤ u.entropy) : ∀ u ∈ nist_stage d, 0 ≤ u.entropy := by
  intro u hu
  obtain ⟨v, hv, huv⟩ := List.mem_map.mp hu
  have hv0 := hd v hv
  have hn := get_NIST_num_bits_nonneg v.password false
  rw [← huv]
  show (0 : ℚ) ≤ v.entropy + get_NIST_num_bits v.password
  linarith

theorem values_min_nonneg (d : List PassVariant)
    (hd : ∀ u ∈ d, 0 ≤ u.entropy) : 0 ≤ values_min d := by
  cases d with
  | nil => simp [values_min]
  | cons v vs =>
    rw [values_min]
    have hbase := hd v (List.mem_cons_self v vs)
    have hall : ∀ u ∈ vs, 0 ≤ u.entropy :=
      fun u hu => hd u (List.mem_cons_of_mem v hu)
    clear hd
    induction vs generalizing v with
    | nil => simpa using hbase
    | cons w ws ih =>
      rw [List.foldl_cons]
      have hw := hall w (List.mem_cons_self w ws)
      have h2 : (0 : ℚ) ≤ min v.entropy w.entropy := le_min hbase hw
      have := ih ⟨v.password, min v.entropy w.entropy⟩ h2
        (fun u hu => hall u (List.mem_cons_of_mem w hu))
      simpa using this

theorem min_entropy_of_nonneg (dict_words : List (List Char)) (orig : List Char) :
    0 ≤ min_entropy_of dict_words orig := by
  unfold min_entropy_of
  simp only
  have hmin : 0 ≤ values_min (nist_stage (find_dict_stage dict_words
      (keyboard_stage (base_variants orig)))) :=
    values_min_nonneg _ (nist_stage_nonneg _ (find_dict_stage_nonneg _ _
      (keyboard_stage_nonneg _ (base_variants_nonneg orig))))
  have hraw : 0 ≤ get_NIST_num_bits orig true + 6 := by
    have := get_NIST_num_bits_nonneg orig true
    linarith
  split_ifs <;> assumption

theorem handle_license_plates_ne_nil (p : List Char) (hp : p ≠ []) :
    handle_license_plates p ≠ [] := by
  unfold handle_license_plates
  cases hfp : find_plate p with
  | none => exact hp
  | some i =>
    simp only
    split_ifs
    · intro hcon
      have := congrArg List.length hcon
      simp [plate_groups] at this
    · exact hp

theorem char_class_flags_step_true (st : Bool × Bool × Bool × Bool) (c : Char) :
    let r := (if char_is_upper c then (true, st.2.1, st.2.2.1, st.2.2.2)
      else if char_is_lower c then (st.1, true, st.2.2.1, st.2.2.2)
      else if char_is_digit c then (st.1, st.2.1, true, st.2.2.2)
      else (st.1, st.2.1, st.2.2.1, true))
    r.1 = true ∨ r.2.1 = true ∨ r.2.2.1 = true ∨ r.2.2.2 = true := by
  split_ifs <;> simp

theorem char_class_flags_fold_true :
    ∀ (l : List Char) (st : Bool × Bool × Bool × Bool),
      (st.1 = true ∨ st.2.1 = true ∨ st.2.2.1 = true ∨ st.2.2.2 = true) →
      let r := l.foldl (fun st char =>
        if char_is_upper char then (true, st.2.1, st.2.2.1, st.2.2.2)
        else if char_is_lower char then (st.1, true, st.2.2.1, st.2.2.2)
        else if char_is_digit char then (st.1, st.2.1, true, st.2.2.2)
        else (st.1, st.2.1, st.2.2.1, true)) st
      r.1 = true ∨ r.2.1 = true ∨ r.2.2.1 = true ∨ r.2.2.2 = true := by
  intro l
  induction l with
  | nil => intro st h; exact h
  | cons c rest ih =>
    intro st h
    rw [List.foldl_cons]
    apply ih
    have hstep := char_class_flags_step_true st c
    split_ifs at hstep ⊢ <;> simp_all

theorem keyspace_size_ge (p : List Char) (hp : p ≠ []) :
    10 ≤ keyspace_size p := by
  obtain ⟨c, rest, hc⟩ : ∃ c rest, p = c :: rest := by
    cases p with
    | nil => exact absurd rfl hp
    | cons c rest => exact ⟨c, rest, rfl⟩
  have hflag : (char_class_flags p).1 = true ∨ (char_class_flags p).2.1 = true ∨
      (char_class_flags p).2.2.1 = true ∨ (char_class_flags p).2.2.2 = true := by
    unfold char_class_flags
    rw [hc, List.foldl_cons]
    exact char_class_flags_fold_true rest _ (char_class_flags_step_true _ c)
  unfold keyspace_size
  rcases hflag with h | h | h | h <;> rw [h] <;> simp only [if_true] <;> omega

/-- C8: the final entropy estimate is never negative, and every variant's
accumulated adjustment is non-negative at every stage of the pipeline. -/
theorem claim8_nonneg (dict_words : List (List Char)) (p : List Char) :
    0 ≤ get_entropy_bits dict_words p ∧
    (∀ v ∈ base_variants (handle_license_plates p), 0 ≤ v.entropy) ∧
    (∀ v ∈ keyboard_stage (base_variants (handle_license_plates p)),
      0 ≤ v.entropy) ∧
    (∀ v ∈ find_dict_stage dict_words
        (keyboard_stage (base_variants (handle_license_plates p))),
      0 ≤ v.entropy) ∧
    (∀ v ∈ nist_stage (find_dict_stage dict_words
        (keyboard_stage (base_variants (handle_license_plates p)))),
      0 ≤ v.entropy) := by
  have hb := base_variants_nonneg (handle_license_plates p)
  have hk := keyboard_stage_nonneg _ hb
  have hd := find_dict_stage_nonneg dict_words _ hk
  have hn := nist_stage_nonneg _ hd
  refine ⟨?_, hb, hk, hd, hn⟩
  unfold get_entropy_bits
  split_ifs with h1 h2
  · norm_num
  · norm_num
  · have hks : 10 ≤ keyspace_size (handle_license_plates p) :=
      keyspace_size_ge _ (handle_license_plates_ne_nil p h1)
    apply mul_nonneg
    · exact_mod_cast min_entropy_of_nonneg dict_words (handle_license_plates p)
    · apply div_nonneg
      · apply Real.log_nonneg
        have : (10 : ℝ) ≤ (keyspace_size (handle_license_plates p) : ℝ) := by
          exact_mod_cast hks
        linarith
      · apply Real.log_nonneg
        norm_num

theorem claim8_nonneg_witness : 0 ≤ get_entropy_bits [] "ab".toList :=
  (claim8_nonneg [] "ab".toList).1

theorem char_is_upper_not_lower {c : Char} (h : char_is_upper c = true) :
    char_is_lower c = false := by
  simp only [char_is_upper, decide_eq_true_eq] at h
  simp only [char_is_lower, decide_eq_false_iff_not, not_and, not_le]
  intro h1
  have e1 : 'a'.toNat = 97 := rfl
  have e2 : 'A'.toNat = 65 := rfl
  have e3 : 'Z'.toNat = 90 := rfl
  omega

theorem char_is_upper_not_digit {c : Char} (h : char_is_upper c = true) :
    char_is_digit c = false := by
  simp only [char_is_upper, decide_eq_true_eq] at h
  simp only [char_is_digit, decide_eq_false_iff_not, not_and, not_le]
  intro h1
  have e1 : '0'.toNat = 48 := rfl
  have e2 : '9'.toNat = 57 := rfl
  have e3 : 'A'.toNat = 65 := rfl
  omega

theorem char_is_lower_not_digit {c : Char} (h : char_is_lower c = true) :
    char_is_digit c = false := by
  simp only [char_is_lower, decide_eq_true_eq] at h
  simp only [char_is_digit, decide_eq_false_iff_not, not_and, not_le]
  intro h1
  have e1 : '0'.toNat = 48 := rfl
  have e2 : '9'.toNat = 57 := rfl
  have e3 : 'a'.toNat = 97 := rfl
  omega

theorem char_class_flags_fold_spec :
    ∀ (l : List Char) (st : Bool × Bool × Bool × Bool),
      l.foldl (fun st char =>
        if char_is_upper char then (true, st.2.1, st.2.2.1, st.2.2.2)
        else if char_is_lower char then (st.1, true, st.2.2.1, st.2.2.2)
        else if char_is_digit char then (st.1, st.2.1, true, st.2.2.2)
        else (st.1, st.2.1, st.2.2.1, true)) st =
      (st.1 || l.any char_is_upper,
       st.2.1 || l.any char_is_lower,
       st.2.2.1 || l.any char_is_digit,
       st.2.2.2 || l.any (fun c =>
         !(char_is_upper c) && !(char_is_lower c) && !(char_is_digit c))) := by
  intro l
  induction l with
  | nil => intro st; simp
  | cons c rest ih =>
    intro st
    rw [List.foldl_cons]
    by_cases hu : char_is_upper c = true
    · have hl := char_is_upper_not_lower hu
      have hd := char_is_upper_not_digit hu
      simp [hu, hl, hd, ih, Bool.or_assoc]
    · rw [Bool.not_eq_true] at hu
      by_cases hl : char_is_lower c = true
      · have hd := char_is_lower_not_digit hl
        simp [hu, hl, hd, ih, Bool.or_assoc]
      · rw [Bool.not_eq_true] at hl
        by_cases hd : char_is_digit c = true
        · simp [hu, hl, hd, ih, Bool.or_assoc]
        · rw [Bool.not_eq_true] at hd
          simp [hu, hl, hd, ih, Bool.or_assoc]

theorem keyspace_size_eq_spec (p : List Char) :
    keyspace_size p = keyspaceSizeSpec p := by
  unfold keyspace_size keyspaceSizeSpec char_class_flags
  rw [char_class_flags_fold_spec]
  simp

theorem values_min_nist (d : List PassVariant) :
    values_min (nist_stage d) =
      qListMin (d.map (fun v => v.entropy + get_NIST_num_bits v.password)) := by
  cases d with
  | nil => rfl
  | cons v vs =>
    simp only [nist_stage, List.map_cons, values_min, qListMin, List.foldl_map]

theorem ite_lt_min (a b : ℚ) : (if b < a then b else a) = min a b := by
  rcases lt_or_ge b a with h | h
  · rw [if_pos h, min_eq_right h.le]
  · rw [if_neg (not_lt.mpr h), min_eq_left h]

theorem min_entropy_of_eq (dict_words : List (List Char)) (orig : List Char) :
    min_entropy_of dict_words orig =
      min (minVariantEntropy dict_words orig) (rawEntropy orig) := by
  unfold min_entropy_of minVariantEntropy rawEntropy
  simp only
  rw [values_min_nist]
  exact ite_lt_min _ _

/-- C1: for every non-empty password with more than one distinct character,
`get_entropy_bits` returns `min(minVariantEntropy, rawEntropy)` multiplied by
the keyspace multiplier `log(keyspaceSize)/log 26`, where all three quantities
are computed from the licence-plate-normalised password. -/
theorem claim1_entropy_aggregation (dict_words : List (List Char)) (p : List Char)
    (h1 : p ≠ []) (h2 : 1 < n_different_characters p) :
    get_entropy_bits dict_words p =
      ((min (minVariantEntropy dict_words (handle_license_plates p))
          (rawEntropy (handle_license_plates p)) : ℚ) : ℝ) *
        keyspaceMultiplier (handle_license_plates p) := by
  unfold get_entropy_bits
  rw [if_neg h1, if_neg (show ¬(n_different_characters p = 1) by omega)]
  unfold keyspaceMultiplier
  rw [← keyspace_size_eq_spec]
  congr 1
  exact_mod_cast min_entropy_of_eq dict_words (handle_license_plates p)

theorem claim1_entropy_aggregation_witness :
    get_entropy_bits [] "ab".toList =
      ((min (minVariantEntropy [] (handle_license_plates "ab".toList))
          (rawEntropy (handle_license_plates "ab".toList)) : ℚ) : ℝ) *
        keyspaceMultiplier (handle_license_plates "ab".toList) :=
  claim1_entropy_aggregation [] "ab".toList (by decide) (by decide)

/-- C4: `longest_common_substring(a, b)` returns an offset and substring such
that the substring occurs in `a` at that offset and occurs in `b`, is longest
among all common contiguous substrings (case-sensitive equality on characters),
the returned offset is the least offset in `a` carrying a maximal common
substring (first found scanning left-to-right), empty inputs give `(0, "")`,
and in particular `("abcdef", "xxbcdyy")` yields offset 1 and `"bcd"`. -/
theorem claim4_lcs_correct (a b : List Char) :
    occursAt (longest_common_substring a b).2 a (longest_common_substring a b).1 ∧
    substr (longest_common_substring a b).2 b ∧
    (∀ u, substr u a → substr u b →
      u.length ≤ (longest_common_substring a b).2.length) ∧
    (∀ i, i + (longest_common_substring a b).2.length ≤ a.length →
      substr ((a.drop i).take (longest_common_substring a b).2.length) b →
      (longest_common_substring a b).1 ≤ i) ∧
    (a = [] ∨ b = [] → longest_common_substring a b = (0, [])) ∧
    longest_common_substring "abcdef".toList "xxbcdyy".toList =
      (1, "bcd".toList) := by
  obtain ⟨h1, h2, h3, h4⟩ := lcs_main a b
  refine ⟨h1, h2, h3, h4, ?_, by decide⟩
  rintro (rfl | rfl)
  · exact lcs_nil_left b
  · exact lcs_nil_right a

theorem claim4_lcs_correct_witness :
    occursAt (longest_common_substring "abcdef".toList "xxbcdyy".toList).2
      "abcdef".toList
      (longest_common_substring "abcdef".toList "xxbcdyy".toList).1 :=
  (claim4_lcs_correct "abcdef".toList "xxbcdyy".toList).1

/-- C6 counterexample: the table entry `"13579"` fully matches the password
`"13579"`; the matched span of length 5 is replaced by just two sentinel
bytes, so the output has length 2, not 5: length is NOT preserved. -/
theorem claim6_counterexample :
    "13579".toList ∈ KEYBOARD_SEQUENCES ∧
    (remove_sequence "13579".toList "13579".toList).length = 2 ∧
    ("13579".toList).length = 5 := by
  refine ⟨by decide, ?_, by decide⟩
  have hlcs : longest_common_substring "13579".toList "13579".toList =
      (0, "13579".toList) := by decide
  have hbig : 2 < (longest_common_substring "13579".toList "13579".toList).2.length := by
    rw [hlcs]
    decide
  have hnil : remove_sequence ([] : List Char) "13579".toList = [] :=
    remove_sequence_of_small _ _ (by rw [lcs_nil_left]; decide)
  rw [remove_sequence_of_big _ _ hbig, hlcs]
  simp only [List.take_zero, hnil]
  have hdrop : "13579".toList.drop (0 + ("13579".toList).length) = [] := by decide
  rw [hdrop, hnil]
  decide

theorem remove_sequence_length_aux : ∀ (n : ℕ) (s k : List Char), s.length = n →
    (remove_sequence s k).length ≤ s.length ∧
    ((remove_sequence s k).length = s.length ↔ remove_sequence s k = s) := by
  intro n
  induction n using Nat.strong_induction_on with
  | _ n ih =>
    intro s k hn
    by_cases hbig : 2 < (longest_common_substring s k).2.length
    · have hb := lcs_start_len_le s k
      have hlt1 : (s.take (longest_common_substring s k).1).length < n := by
        simp only [List.length_take]
        omega
      have hlt2 : (s.drop ((longest_common_substring s k).1 +
          (longest_common_substring s k).2.length)).length < n := by
        simp only [List.length_drop]
        omega
      obtain ⟨ha1, -⟩ := ih _ hlt1 (s.take (longest_common_substring s k).1) k rfl
      obtain ⟨hb1, -⟩ := ih _ hlt2 (s.drop ((longest_common_substring s k).1 +
        (longest_common_substring s k).2.length)) k rfl
      have hstrict : (remove_sequence s k).length < s.length := by
        rw [remove_sequence_of_big _ _ hbig]
        simp only [List.length_append, List.length_cons, List.length_nil,
          List.length_take, List.length_drop] at ha1 hb1 ⊢
        omega
      refine ⟨le_of_lt hstrict, ?_, ?_⟩
      · intro hcon; omega
      · intro hcon
        have := congrArg List.length hcon
        omega
    · rw [remove_sequence_of_small _ _ (by omega)]
      exact ⟨le_refl _, fun _ => rfl, fun _ => rfl⟩

/-- C6 (amended): each matched span longer than 2 characters is replaced by
exactly TWO sentinel bytes, so the output never exceeds the input in length,
and it has equal length exactly when nothing was stripped (the output is the
input itself); gaps replace whole spans, shrinking the string. -/
theorem claim6_remove_sequence_length_amended (s k : List Char) :
    (remove_sequence s k).length ≤ s.length ∧
    ((remove_sequence s k).length = s.length ↔ remove_sequence s k = s) :=
  remove_sequence_length_aux s.length s k rfl

theorem claim6_remove_sequence_length_amended_witness :
    (remove_sequence "ab".toList "13579".toList).length ≤ 2 ∧
    ((remove_sequence "ab".toList "13579".toList).length = 2 ↔
      remove_sequence "ab".toList "13579".toList = "ab".toList) := by
  have h := claim6_remove_sequence_length_amended "ab".toList "13579".toList
  simpa using h

theorem substr_subset {u s : List Char} (h : substr u s) : ∀ c ∈ u, c ∈ s := by
  obtain ⟨i, hb, he⟩ := h
  intro c hc
  rw [← he] at hc
  have h1 : c ∈ s.drop i := (List.take_sublist _ _).subset hc
  exact (List.drop_sublist _ _).subset h1

theorem substr_append_sentinel {u X Y : List Char} {c : Char} (hc : c ∉ u) :
    ∀ i, occursAt u (X ++ c :: Y) i → substr u X ∨ substr u Y := by
  intro i h
  obtain ⟨hb, hpw⟩ := (occursAt_iff_pointwise ..).mp h
  have hlen : (X ++ c :: Y).length = X.length + 1 + Y.length := by
    simp [List.length_append]
    omega
  rcases le_or_lt (i + u.length) X.length with hle | hgt
  · left
    refine ⟨i, (occursAt_iff_pointwise ..).mpr ⟨hle, ?_⟩⟩
    intro j hj
    rw [← hpw j hj]
    rw [List.getElem?_append, if_pos (show i + j < X.length by omega)]
  · rcases le_or_lt (X.length + 1) i with hge | hmid
    · right
      refine ⟨i - X.length - 1, (occursAt_iff_pointwise ..).mpr ⟨by omega, ?_⟩⟩
      intro j hj
      rw [← hpw j hj]
      have h1 : (X ++ c :: Y)[i + j]? = (c :: Y)[i + j - X.length]? :=
        List.getElem?_append_right (by omega)
      rw [h1]
      have hm : i + j - X.length = (i - X.length - 1 + j) + 1 := by omega
      rw [hm, List.getElem?_cons_succ]
    · exfalso
      have hj0 : X.length - i < u.length := by omega
      have hval := hpw (X.length - i) hj0
      have hXc : (X ++ c :: Y)[i + (X.length - i)]? = some c := by
        have e : i + (X.length - i) = X.length := by omega
        rw [e, List.getElem?_append_right (le_refl _)]
        simp
      rw [hXc] at hval
      exact hc (List.getElem?_mem hval.symm)

theorem remove_sequence_no_big : ∀ (n : ℕ) (s k : List Char), s.length = n →
    NUL ∉ k → no_big_common (remove_sequence s k) k := by
  intro n
  induction n using Nat.strong_induction_on with
  | _ n ih =>
    intro s k hn hknul
    by_cases hbig : 2 < (longest_common_substring s k).2.length
    · have hb := lcs_start_len_le s k
      have hlt1 : (s.take (longest_common_substring s k).1).length < n := by
        simp only [List.length_take]
        omega
      have hlt2 : (s.drop ((longest_common_substring s k).1 +
          (longest_common_substring s k).2.length)).length < n := by
        simp only [List.length_drop]
        omega
      have ihA := ih _ hlt1 (s.take (longest_common_substring s k).1) k rfl hknul
      have ihB := ih _ hlt2 (s.drop ((longest_common_substring s k).1 +
        (longest_common_substring s k).2.length)) k rfl hknul
      rw [remove_sequence_of_big _ _ hbig]
      intro u hu1 hu2
      have hcnul : NUL ∉ u := fun hmem => hknul (substr_subset hu2 NUL hmem)
      obtain ⟨i, hocc⟩ := hu1
      have hocc' : occursAt u
          (remove_sequence (s.take (longest_common_substring s k).1) k ++
            NUL :: (NUL :: remove_sequence (s.drop ((longest_common_substring s k).1 +
              (longest_common_substring s k).2.length)) k)) i := by
        rw [List.append_assoc] at hocc
        exact hocc
      rcases substr_append_sentinel hcnul i hocc' with hA | hY
      · exact ihA u hA hu2
      · obtain ⟨i2, hocc2⟩ := hY
        have hocc2' : occursAt u
            (([] : List Char) ++ NUL ::
              remove_sequence (s.drop ((longest_common_substring s k).1 +
                (longest_common_substring s k).2.length)) k) i2 := hocc2
        rcases substr_append_sentinel hcnul i2 hocc2' with hE | hB
        · obtain ⟨i3, hocc3⟩ := hE
          obtain ⟨hu0, -⟩ := occursAt_nil u i3 hocc3
          rw [hu0]
          decide
        · exact ihB u hB hu2
    · rw [remove_sequence_of_small _ _ (by omega)]
      intro u hu1 hu2
      have := (lcs_main s k).2.2.1 u hu1 hu2
      omega

/-- C10: stripping a keyboard sequence is idempotent: a second pass of
`remove_sequence` with the same table entry leaves the output unchanged,
because every sentinel-free fragment of the output has no common substring
with the entry longer than 2, and the sentinel occurs in no table entry. -/
theorem claim10_remove_sequence_idempotent (s k : List Char)
    (hk : k ∈ KEYBOARD_SEQUENCES) :
    remove_sequence (remove_sequence s k) k = remove_sequence s k := by
  have hknul : NUL ∉ k := by
    fin_cases hk <;> decide
  have hnb : no_big_common (remove_sequence s k) k :=
    remove_sequence_no_big s.length s k rfl hknul
  apply remove_sequence_of_small
  by_contra hcon
  push_neg at hcon
  obtain ⟨hocc1, hsub2, -, -⟩ := lcs_main (remove_sequence s k) k
  have h1 : substr (longest_common_substring (remove_sequence s k) k).2
      (remove_sequence s k) := ⟨_, hocc1⟩
  have := hnb _ h1 hsub2
  omega

theorem claim10_remove_sequence_idempotent_witness :
    remove_sequence (remove_sequence "a13579b".toList "13579".toList)
      "13579".toList = remove_sequence "a13579b".toList "13579".toList :=
  claim10_remove_sequence_idempotent "a13579b".toList "13579".toList (by decide)

theorem str_index_eq (w : List Char) :
    ∀ (s : List Char), substr w s → str_index w s = some (str_find w s) := by
  intro s
  induction s with
  | nil =>
    intro hsub
    obtain ⟨i, hi⟩ := hsub
    obtain ⟨hw, -⟩ := occursAt_nil w i hi
    subst hw
    rfl
  | cons c t ih =>
    intro hsub
    by_cases hp : w.isPrefixOf (c :: t)
    · simp only [str_index, str_find, if_pos hp]
    · have hsubt : substr w t := by
        obtain ⟨i, hi⟩ := hsub
        cases i with
        | zero =>
          exfalso
          rw [occursAt_zero_iff] at hi
          exact hp ((isPrefixOf_iff_take w (c :: t)).mpr hi.2)
        | succ j =>
          exact ⟨j, (occursAt_cons_succ w t c j).mp hi⟩
      simp only [str_index, str_find, if_neg hp, ih hsubt, Option.map_some']

theorem scan_dict_words_checked_eq (clean_pass : List Char) (n_alpha_chars : ℕ)
    (substr_set : List (List Char)) :
    ∀ (words : List (List Char)),
      scan_dict_words_checked clean_pass n_alpha_chars substr_set words =
        some (scan_dict_words clean_pass n_alpha_chars substr_set words) := by
  intro words
  induction words with
  | nil => rfl
  | cons w rest ih =>
    simp only [scan_dict_words_checked, scan_dict_words]
    by_cases h1 : w ∈ substr_set ∧ substr w clean_pass
    · rw [if_pos h1, if_pos h1]
      by_cases h6 : 6 ≤ w.length
      · rw [if_pos h6, if_pos h6]
      · rw [if_neg h6, if_neg h6]
        by_cases hna : w.length * 2 ≤ n_alpha_chars
        · rw [if_pos hna, if_pos hna]
          exact ih
        · rw [if_neg hna, if_neg hna]
          have hw1 : 1 ≤ w.length := by
            by_contra hcon
            have : w.length = 0 := by omega
            omega
          have hidx := str_index_eq w clean_pass h1.2
          rw [hidx, Option.some_bind]
          by_cases hz : str_find w clean_pass = 0
          · rw [if_pos hz, if_pos hz]
          · rw [if_neg hz, if_neg hz]
            obtain ⟨hocc, -⟩ := str_find_first w clean_pass h1.2
            have hlt : str_find w clean_pass - 1 < clean_pass.length := by
              have := hocc.1
              omega
            have hget : clean_pass[str_find w clean_pass - 1]? =
                some (clean_pass.getD (str_find w clean_pass - 1) ' ') := by
              rw [List.getD_eq_getElem?_getD, List.getElem?_eq_getElem hlt]
              rfl
            rw [hget, Option.some_bind]
            by_cases hprev : char_is_lower
                (clean_pass.getD (str_find w clean_pass - 1) ' ') = false
            · rw [if_pos hprev, if_pos hprev]
            · rw [if_neg hprev, if_neg hprev]
              exact ih
    · rw [if_neg h1, if_neg h1]
      exact ih

theorem dict_words_check_checked_eq (dict_words : List (List Char))
    (cur_pass : PassVariant) :
    dict_words_check_checked dict_words cur_pass =
      some (dict_words_check dict_words cur_pass) := by
  unfold dict_words_check_checked dict_words_check
  simp only
  by_cases h3 : 3 ≤ (cur_pass.password.filter (fun c => c != NUL)).length
  · rw [if_pos h3, if_pos h3, scan_dict_words_checked_eq, Option.map_some']
  · rw [if_neg h3, if_neg h3]

theorem find_dict_stage_checked_eq (dict_words : List (List Char)) :
    ∀ (d : List PassVariant),
      find_dict_stage_checked dict_words d = some (find_dict_stage dict_words d) := by
  intro d
  induction d with
  | nil => rfl
  | cons v rest ih =>
    simp only [find_dict_stage_checked, dict_words_check_checked_eq,
      Option.some_bind, ih, Option.map_some']
    rfl

theorem nist_rep_loop_checked_eq :
    ∀ (l : List (ℕ × Char)) (cm : List ℚ) (mf : ℕ → ℚ) (r : ℚ),
      cm.length = 256 → (∀ i < 256, cm[i]? = some (mf i)) →
      (∀ ic ∈ l, ic.2.toNat < 256) →
      (nist_rep_loop_checked l (cm, r)).map (fun st => st.2) =
        some ((List.foldl (fun st ic =>
          let charmult := st.1
          let result := st.2
          let tempchr := ic.2.toNat
          let add : ℚ :=
            if 19 ≤ ic.1 then charmult tempchr
            else if 8 ≤ ic.1 then charmult tempchr * 1.5
            else if 1 ≤ ic.1 then charmult tempchr * 2
            else 4
          (fupd charmult tempchr (max (charmult tempchr * 0.75) 0.4),
            result + add)) (mf, r) l).2) := by
  intro l
  induction l with
  | nil =>
    intro cm mf r _ _ _
    rfl
  | cons ic rest ih =>
    intro cm mf r hlen hget hmem
    have hb : ic.2.toNat < 256 := hmem ic (List.mem_cons_self ic rest)
    simp only [nist_rep_loop_checked, List.foldl_cons]
    rw [hget ic.2.toNat hb, Option.some_bind]
    have hlen2 : (cm.set ic.2.toNat (max (mf ic.2.toNat * 0.75) 0.4)).length = 256 := by
      rw [List.length_set]
      exact hlen
    have hget2 : ∀ i < 256,
        (cm.set ic.2.toNat (max (mf ic.2.toNat * 0.75) 0.4))[i]? =
          some (fupd mf ic.2.toNat (max (mf ic.2.toNat * 0.75) 0.4) i) := by
      intro i hi
      by_cases hie : ic.2.toNat = i
      · subst hie
        rw [List.getElem?_set_self (by omega), fupd_same]
      · rw [List.getElem?_set_ne hie, fupd_other _ _ _ _ (fun hcon => hie hcon.symm)]
        exact hget i hi
    exact ih _ _ _ hlen2 hget2 (fun z hz => hmem z (List.mem_cons_of_mem ic hz))

theorem get_NIST_num_bits_rep_checked_eq (p : List Char)
    (hb : ∀ c ∈ p, c.toNat < 256) :
    get_NIST_num_bits_rep_checked p = some (get_NIST_num_bits p true) := by
  unfold get_NIST_num_bits_rep_checked get_NIST_num_bits
  rw [if_pos rfl]
  have henum : ∀ ic ∈ p.enum, ic.2.toNat < 256 := by
    intro ic hic
    exact hb ic.2 (List.snd_mem_of_mem_enum hic)
  exact nist_rep_loop_checked_eq p.enum (List.replicate 256 1) (fun _ => 1) 0
    (by rw [List.length_replicate]) (fun i hi => List.getElem?_replicate_of_lt hi) henum

theorem values_min_checked_eq (d : List PassVariant) (hd : d ≠ []) :
    values_min_checked d = some (values_min d) := by
  cases d with
  | nil => exact absurd rfl hd
  | cons v vs => rfl

theorem kmInsert_ne_nil (d : List PassVariant) (v : PassVariant) :
    kmInsert d v ≠ [] := by
  cases d with
  | nil => simp [kmInsert]
  | cons w ws =>
    rw [kmInsert]
    split_ifs <;> simp

theorem base_variants_ne_nil (orig : List Char) : base_variants orig ≠ [] := by
  unfold base_variants
  exact kmInsert_ne_nil _ _

theorem keyboard_stage_ne_nil (d : List PassVariant) (hd : d ≠ []) :
    keyboard_stage d ≠ [] := by
  unfold keyboard_stage
  suffices h : ∀ (l acc : List PassVariant), acc ≠ [] →
      l.foldl (fun acc cur_pass =>
        if cur_pass.password ≠ remove_all_sequences cur_pass.password then
          kmInsert acc ⟨remove_all_sequences cur_pass.password, cur_pass.entropy⟩
        else acc) acc ≠ [] by
    exact h d d hd
  intro l
  induction l with
  | nil => intro acc h; exact h
  | cons w ws ih =>
    intro acc h
    rw [List.foldl_cons]
    apply ih
    split_ifs
    · exact kmInsert_ne_nil _ _
    · exact h

theorem find_dict_stage_ne_nil (dict_words : List (List Char))
    (d : List PassVariant) (hd : d ≠ []) : find_dict_stage dict_words d ≠ [] := by
  unfold find_dict_stage
  intro hcon
  exact hd (List.map_eq_nil_iff.mp hcon)

theorem nist_stage_ne_nil (d : List PassVariant) (hd : d ≠ []) :
    nist_stage d ≠ [] := by
  unfold nist_stage
  intro hcon
  exact hd (List.map_eq_nil_iff.mp hcon)

theorem getD_mem {l : List Char} {i : ℕ} (d : Char) (h : i < l.length) :
    l.getD i d ∈ l := by
  rw [List.getD_eq_getElem?_getD, List.getElem?_eq_getElem h]
  simp only [Option.getD_some]
  exact List.getElem_mem h

theorem find_plate_bound {p : List Char} {i : ℕ} (h : find_plate p = some i) :
    i + 8 ≤ p.length := by
  have hfind := List.find?_some h
  unfold plate_at at hfind
  simp only [Bool.and_eq_true, decide_eq_true_eq] at hfind
  exact hfind.1.1.1.1.1

theorem handle_license_plates_chars (p : List Char) :
    ∀ c ∈ handle_license_plates p, c ∈ p := by
  unfold handle_license_plates
  cases hfp : find_plate p with
  | none => intro c hc; exact hc
  | some i =>
    simp only
    split_ifs with hcl
    · intro c hc
      have hbound : i + 8 ≤ p.length := find_plate_bound hfp
      rcases List.mem_append.mp hc with h | h
      · rcases List.mem_append.mp h with h2 | h2
        · exact (List.take_sublist _ _).subset h2
        · unfold plate_groups at h2
          simp only [List.mem_cons, List.not_mem_nil, or_false] at h2
          rcases h2 with h3 | h3 | h3 | h3 | h3 | h3 <;>
            (rw [h3]; exact getD_mem ' ' (by omega))
      · exact (List.drop_sublist _ _).subset h
    · intro c hc; exact hc

theorem min_entropy_of_checked_eq (dict_words : List (List Char))
    (orig_pass : List Char) (hb : ∀ c ∈ orig_pass, c.toNat < 256) :
    min_entropy_of_checked dict_words orig_pass =
      some (min_entropy_of dict_words orig_pass) := by
  unfold min_entropy_of_checked min_entropy_of
  rw [find_dict_stage_checked_eq, Option.some_bind]
  rw [values_min_checked_eq _ (nist_stage_ne_nil _ (find_dict_stage_ne_nil _ _
    (keyboard_stage_ne_nil _ (base_variants_ne_nil orig_pass)))), Option.some_bind]
  rw [get_NIST_num_bits_rep_checked_eq orig_pass hb, Option.map_some']

/-- C9: `get_entropy_bits` is total on byte strings: the checked evaluation
never fails — the keyspace size is positive for non-empty input, `index` is
reached only when the word occurs, the `charmult` array (size 256) is always
indexed in range, and the variant collection is never empty — and it returns
exactly the unchecked value. -/
theorem claim9_total (dict_words : List (List Char)) (p : List Char)
    (hbytes : ∀ c ∈ p, c.toNat < 256) :
    get_entropy_bits_checked dict_words p = some (get_entropy_bits dict_words p) := by
  unfold get_entropy_bits_checked get_entropy_bits
  by_cases h1 : p = []
  · rw [if_pos h1, if_pos h1]
  · rw [if_neg h1, if_neg h1]
    by_cases h2 : n_different_characters p = 1
    · rw [if_pos h2, if_pos h2]
    · rw [if_neg h2, if_neg h2]
      have hks : ¬(keyspace_size (handle_license_plates p) = 0) := by
        have := keyspace_size_ge _ (handle_license_plates_ne_nil p h1)
        omega
      rw [if_neg hks]
      have hborig : ∀ c ∈ handle_license_plates p, c.toNat < 256 :=
        fun c hc => hbytes c (handle_license_plates_chars p c hc)
      rw [min_entropy_of_checked_eq dict_words _ hborig, Option.map_some']

theorem claim9_total_witness :
    get_entropy_bits_checked [] "ab".toList = some (get_entropy_bits [] "ab".toList) :=
  claim9_total [] "ab".toList (by decide)
